import Mathlib

/-!
# xgboost_gbtree_predict: a shallow embedding of `xgboost_gbtree_model.h`

The header defines `regression::Node` (a 20-byte record with packed accessors),
and `regression::GBTree` with `load` (binary deserialiser), `predict` (leaf-index
traversal) and the private helper `GetNext`.

Conventions of the embedding:
* C `int` fields hold values of `Int`; no arithmetic is performed on them by the
  traversal, so no wrap-around is needed there.  Where the source does arithmetic
  in a fixed width (the packed index, the node-statistics skip, the conversions
  to the offset of `fseek` and to the key of the map) the width is explicit.
* `bst_float` is an IEEE-754 binary32 value, represented by its 32-bit pattern;
  `f32lt` is the `<` of binary32 on patterns.
* `tree_[i][pid]` outside the vector is undefined behaviour in the source; the
  embedding reports it as `outOfBounds`.
* the `while` loop of `predict` has no bound in the source; the embedding gives
  it a step budget and reports an exhausted budget as `outOfFuel`.
* the model file is the list of its bytes; the stream `fp` is a read position
  together with the log of its movements.  The source looks at the result of
  neither `fread` nor `fseek`, and the embedding goes on as the source does: an
  `fread` that cannot get all its bytes copies those it gets, advances by their
  number and leaves the rest of its buffer as it was; an `fseek` may move past
  the end of the file, and fails, leaving the position, when the target is
  before the start of the file or beyond the largest position of the file
  system.  That largest position is a parameter `lim` of `load`.
* the local variables `len`, `gbtree_model_param` and `tree_param` are not
  initialised by the source; what they hold before their first `fread` is a
  parameter `g` of `load`.  The nodes of a tree are created by `resize` as zero
  bytes; `load` is taken on a `GBTree` whose `tree_` is empty, the file is taken
  to exist, and memory to suffice.
* sizes of the records are those of the usual ABI (4-byte `int`, 8-byte aligned
  `int64_t`): 160 and 148 bytes for the two parameter blocks, as the source
  notes in its comments, and 20 bytes for a node.
* the movements of the read position are logged by `fread` and `fseek`
  themselves, so `loadTrace` is the log of the very run that gives `load`.

The file has three parts: the embedding of the source, the documented layout of
a model file with the tree invariant (both from the data model, not from the
code), and the lemmas and theorems.
-/

namespace regression

/-! ## bst_float -/

/-- The type `bst_float` (`float`): an IEEE-754 binary32 bit pattern, below `2^32`. -/
abbrev bst_float := Nat

/-- A binary32 pattern is a NaN: exponent field all ones, fraction non-zero. -/
def f32IsNaN (x : bst_float) : Bool :=
  (x / 2 ^ 23 % 256 == 255) && (x % 2 ^ 23 != 0)

/-- Order key of a non-NaN binary32 pattern: the magnitude bits, negated when the
sign bit is set.  Both zeros get key `0`; the key is monotone in the value. -/
def f32Key (x : bst_float) : Int :=
  if x / 2 ^ 31 % 2 = 1 then -((x % 2 ^ 31 : Nat) : Int) else ((x % 2 ^ 31 : Nat) : Int)

/-- The comparison `a < b` of two `float`s: false when either is a NaN. -/
def f32lt (a b : bst_float) : Bool :=
  !f32IsNaN a && !f32IsNaN b && decide (f32Key a < f32Key b)

/-- The comparison `a == b` of two `float`s: false when either is a NaN, and
true for `+0.0 == -0.0`. -/
def f32eq (a b : bst_float) : Bool :=
  !f32IsNaN a && !f32IsNaN b && decide (f32Key a = f32Key b)

/-! ## Node -/

/-- The record `class Node`: the five private fields, in declaration order.
`info_` is the union of `leaf_value` and `split_cond`, one binary32 slot. -/
structure Node where
  parent_ : Int
  cleft_ : Int
  cright_ : Int
  sindex_ : Nat
  info_ : bst_float
  deriving DecidableEq, Repr

namespace Node

/-- Accessor `cleft()`. -/
def cleft (n : Node) : Int := n.cleft_

/-- Accessor `cright()`. -/
def cright (n : Node) : Int := n.cright_

/-- Accessor `split_index()`: `sindex_ & ((1U << 31) - 1U)`. -/
def split_index (n : Node) : Nat := n.sindex_ &&& ((1 <<< 31) - 1)

/-- Accessor `default_left()`: `(sindex_ >> 31) != 0`. -/
def default_left (n : Node) : Bool := (n.sindex_ >>> 31) != 0

/-- Accessor `is_leaf()`: `cleft_ == -1`. -/
def is_leaf (n : Node) : Bool := n.cleft_ == -1

/-- Accessor `cdefault()`: `default_left() ? cleft() : cright()`. -/
def cdefault (n : Node) : Int := if n.default_left then n.cleft else n.cright

/-- Accessor `split_cond()`: the payload read as a threshold. -/
def split_cond (n : Node) : bst_float := n.info_

end Node

/-! ## GBTree: traversal -/

/-- The member `tree_` of `GBTree`: `std::vector< std::vector<Node> >`. -/
abbrev GBTree := List (List Node)

/-- The argument `feat` of `predict`, a `std::map<int, float>`, as its lookup
function: `feat k = none` when `feat.find(k) == feat.end()`. -/
abbrev FeatMap := Int → Option bst_float

/-- Conversion of an `unsigned` to the map's key type `int` (two's complement). -/
def unsignedToInt (u : Nat) : Int :=
  if u % 2 ^ 32 < 2 ^ 31 then ((u % 2 ^ 32 : Nat) : Int) else ((u % 2 ^ 32 : Nat) : Int) - 2 ^ 32

/-- The element `tree[pid]` of one tree, `none` outside the vector. -/
def treeAt (tree : List Node) (pid : Int) : Option Node :=
  if 0 ≤ pid then tree[pid.toNat]? else none

/-- The element `tree_[i][pid]`, `none` outside either vector. -/
def nodeAt (tree_ : GBTree) (i : Nat) (pid : Int) : Option Node :=
  match tree_[i]? with
  | none => none
  | some tree => treeAt tree pid

/-- The helper `GBTree::GetNext(tree_num, pid, fvalue, is_unknown)`. -/
def GetNext (tree_ : GBTree) (tree_num : Nat) (pid : Int) (fvalue : bst_float)
    (is_unknown : Bool) : Option Int :=
  match nodeAt tree_ tree_num pid with
  | none => none
  | some nd =>
    let split_value := nd.split_cond
    if is_unknown then
      some nd.cdefault
    else if f32lt fvalue split_value then
      some nd.cleft
    else
      some nd.cright

/-- One execution of the body of the `while` loop of `predict` for tree `i` at
position `pid`: look the split feature up and call `GetNext`. -/
def stepPid (tree_ : GBTree) (feat : FeatMap) (i : Nat) (pid : Int) : Option Int :=
  match nodeAt tree_ i pid with
  | none => none
  | some nd =>
    let split_index := nd.split_index
    match feat (unsignedToInt split_index) with
    | none => GetNext tree_ i pid 0 true
    | some fvalue => GetNext tree_ i pid fvalue false

/-- How the `while` loop of `predict` ends for one tree. -/
inductive Walk where
  | leaf (pid : Int)
  | outOfBounds (pid : Int)
  | outOfFuel (pid : Int)
  deriving DecidableEq, Repr

/-- The `while(!tree_[i][pid].is_leaf())` loop of `predict`, started at `pid`,
allowed at most `fuel` executions of its body. -/
def walk (tree_ : GBTree) (feat : FeatMap) (i : Nat) : Nat → Int → Walk
  | 0, pid =>
    match nodeAt tree_ i pid with
    | none => .outOfBounds pid
    | some nd => if nd.is_leaf then .leaf pid else .outOfFuel pid
  | fuel + 1, pid =>
    match nodeAt tree_ i pid with
    | none => .outOfBounds pid
    | some nd =>
      if nd.is_leaf then .leaf pid
      else
        match stepPid tree_ feat i pid with
        | none => .outOfBounds pid
        | some next => walk tree_ feat i fuel next

/-- The positions `pid` at which the loop of `predict` evaluates `tree_[i][pid]`,
in order (same recursion as `walk`). -/
def visited (tree_ : GBTree) (feat : FeatMap) (i : Nat) : Nat → Int → List Int
  | 0, pid => [pid]
  | fuel + 1, pid =>
    match nodeAt tree_ i pid with
    | none => [pid]
    | some nd =>
      if nd.is_leaf then [pid]
      else
        match stepPid tree_ feat i pid with
        | none => [pid]
        | some next => pid :: visited tree_ feat i fuel next

/-- The call `out_preds.resize(n)` on a `std::vector<int>`. -/
def resize (out_preds : List Int) (n : Nat) : List Int :=
  out_preds.take n ++ List.replicate (n - out_preds.length) 0

/-- How a call of `predict` ends. -/
inductive Predicted where
  | ok (out_preds : List Int)
  | outOfBounds (i : Nat) (pid : Int)
  | outOfFuel (i : Nat)
  deriving DecidableEq, Repr

/-- The `for` loop of `predict`: `todo` trees remain, the next one is `i`. -/
def predictLoop (tree_ : GBTree) (feat : FeatMap) (fuel : Nat) :
    Nat → Nat → List Int → Predicted
  | 0, _, out_preds => .ok out_preds
  | todo + 1, i, out_preds =>
    match walk tree_ feat i fuel 0 with
    | .leaf pid => predictLoop tree_ feat fuel todo (i + 1) (out_preds.set i pid)
    | .outOfBounds pid => .outOfBounds i pid
    | .outOfFuel _ => .outOfFuel i

/-- The method `GBTree::predict(feat, out_preds)`; `fuel` bounds the body
executions of each tree's `while` loop. -/
def predict (tree_ : GBTree) (feat : FeatMap) (out_preds : List Int) (fuel : Nat) :
    Predicted :=
  predictLoop tree_ feat fuel tree_.length 0 (resize out_preds tree_.length)

/-! ## Well-formed trees (the tree invariant of the data model) -/

/-- Position `p` is a valid position of `tree`. -/
def InRange (tree : List Node) (p : Int) : Prop := 0 ≤ p ∧ p < tree.length

instance (tree : List Node) (p : Int) : Decidable (InRange tree p) := by
  unfold InRange; infer_instance

/-- Position `q` is a child (`cleft` or `cright`) of the non-leaf node at `p`. -/
def Child (tree : List Node) (p q : Int) : Prop :=
  ∃ nd, treeAt tree p = some nd ∧ nd.is_leaf = false ∧ (q = nd.cleft ∨ q = nd.cright)

/-- A well-formed tree: at least one node, every non-leaf node's `cleft` and
`cright` are valid positions of the same tree, and no position reachable from
the root (position 0) lies on a cycle of child links. -/
structure WellFormed (tree : List Node) : Prop where
  nonempty : tree ≠ []
  children : ∀ nd ∈ tree, nd.is_leaf = false → InRange tree nd.cleft ∧ InRange tree nd.cright
  acyclic : ∀ p, Relation.ReflTransGen (Child tree) 0 p → ¬ Relation.TransGen (Child tree) p p

/-- A decidable sufficient condition for `WellFormed`: the tree is non-empty and
every non-leaf node's children are valid positions larger than its own. -/
def childrenAfter (tree : List Node) : Bool :=
  !tree.isEmpty &&
  (List.range tree.length).all fun k =>
    match tree[k]? with
    | none => true
    | some nd =>
      nd.is_leaf ||
        (decide ((k : Int) < nd.cleft ∧ nd.cleft < tree.length) &&
         decide ((k : Int) < nd.cright ∧ nd.cright < tree.length))

/-- Two nodes agree on everything `predict` reads: the child links, the packed
index, and the payload unless the node is a leaf.  The `parent_` field and the
payload of a leaf are free. -/
def SameSplits (a b : Node) : Prop :=
  a.cleft_ = b.cleft_ ∧ a.cright_ = b.cright_ ∧ a.sindex_ = b.sindex_ ∧
    (a.is_leaf = false → a.info_ = b.info_)

/-- Two ensembles with the same shape whose nodes agree pairwise by `SameSplits`. -/
def SameEnsemble (g h : GBTree) : Prop :=
  List.Forall₂ (List.Forall₂ SameSplits) g h

instance (a b : Node) : Decidable (SameSplits a b) := by
  unfold SameSplits; infer_instance

/-! ## Concrete trees and feature mappings used to instantiate the theorems -/

/-- A feature mapping given by its entries; as with `std::map::insert`, the first
entry of a key is the one kept. -/
def featOfList (entries : List (Int × bst_float)) : FeatMap := fun k => entries.lookup k

/-- A leaf node (`cleft_ = -1`) with payload `0.0`. -/
def leafNode : Node := ⟨0, -1, 0, 0, 0⟩

/-- A root testing feature 3 against threshold `1.5` (pattern `0x3FC00000`), with
`default_left() = false`, left child at position 1 and right child at position 2. -/
def splitRoot : Node := ⟨-1, 1, 2, 3, 0x3FC00000⟩

/-- The tree of one split and two leaves: root at 0, leaves at 1 and 2. -/
def splitTree : List Node := [splitRoot, leafNode, leafNode]

/-- The tree whose only node is a root leaf. -/
def leafTree : List Node := [leafNode]

/-! ## GBTree: load -/

/-- Size in bytes of the learner header skipped first (`sizeof_learn_param`). -/
def sizeof_learn_param : Int := 136

/-- Size in bytes of one node-statistics record (`sizeof_node_stat`). -/
def sizeof_node_stat : Int := 16

/-- Value of `sizeof(GBTreeModelParam)`: four `int`, one `int64_t`, two `int`
and `int reserved[32]`. -/
def sizeof_gbtree_model_param : Nat := 160

/-- Value of `sizeof(TreeParam)`: six `int` and `int reserved[31]`. -/
def sizeof_tree_param : Nat := 148

/-- Value of `sizeof(Node)`: three `int`, one `unsigned` and the 4-byte union. -/
def sizeof_node : Nat := 20

/-- Value of a little-endian byte string. -/
def leNat : List Nat → Nat
  | [] => 0
  | b :: bs => b % 256 + 256 * leNat bs

/-- The unsigned little-endian field of `width` bytes at offset `off` of a record. -/
def fieldAt (record : List Nat) (off width : Nat) : Nat :=
  leNat ((record.drop off).take width)

/-- The `int` field at offset `off` of a record. -/
def int32At (record : List Nat) (off : Nat) : Int :=
  unsignedToInt (fieldAt record off 4)

/-- A 32-bit result of `int` arithmetic, wrapped to the range of `int`. -/
def wrapInt32 (x : Int) : Int :=
  (x + 2 ^ 31) % 2 ^ 32 - 2 ^ 31

/-- Conversion of a `uint64_t` to the `long` offset of `fseek` (two's complement). -/
def toInt64 (u : Nat) : Int :=
  if u % 2 ^ 64 < 2 ^ 63 then ((u % 2 ^ 64 : Nat) : Int)
  else ((u % 2 ^ 64 : Nat) : Int) - 2 ^ 64

/-- A `Node` as `fread` fills it from its 20 bytes: `parent_`, `cleft_`,
`cright_`, `sindex_`, `info_` at offsets 0, 4, 8, 12, 16. -/
def decodeNode (record : List Nat) : Node :=
  { parent_ := int32At record 0
    cleft_ := int32At record 4
    cright_ := int32At record 8
    sindex_ := fieldAt record 12 4
    info_ := fieldAt record 16 4 }

/-- The largest value of a `long`, the type of the offset of `fseek`. -/
def LONG_MAX : Nat := 2 ^ 63 - 1

/-- The largest position `fseek` can set on a file with these bytes: the largest
offset `lim` of the file system that holds the file, capped by `LONG_MAX`; it is
never below the size of the file, which that file system holds. -/
def offsetLimit (lim : Nat) (bytes : List Nat) : Nat :=
  max bytes.length (min lim LONG_MAX)

/-- The position after `fseek(fp, off, SEEK_CUR)` from `pos`, on a file whose
largest position is `limit`: a seek past the end of the file succeeds; a seek
before the start of the file or beyond `limit` fails and leaves the position at
`pos`.  The source does not look at the result of `fseek`. -/
def fseekCur (limit pos : Nat) (off : Int) : Nat :=
  if 0 ≤ (pos : Int) + off ∧ (pos : Int) + off ≤ limit then ((pos : Int) + off).toNat else pos

/-- The three calls of `fseek` in `load`, each with the value read from the file
that its offset is computed from. -/
inductive SkipKind where
  /-- The call `fseek(fp, sizeof_learn_param, SEEK_CUR)`. -/
  | header
  /-- The call `fseek(fp, len, SEEK_CUR)`, with the `uint64_t len` just read. -/
  | block (len : Nat)
  /-- The call `fseek(fp, sizeof_node_stat * tree_param.num_nodes, SEEK_CUR)`. -/
  | stats (num_nodes : Int)
  deriving DecidableEq, Repr

/-- The offset the source passes to `fseek`, after the conversions of C: the
`uint64_t` becomes a `long`, the product is computed in `int`. -/
def SkipKind.offset : SkipKind → Int
  | .header => sizeof_learn_param
  | .block len => toInt64 len
  | .stats num_nodes => wrapInt32 (sizeof_node_stat * num_nodes)

/-- One movement of the read position during `load`. -/
inductive Move where
  /-- A call of `fread` for `n` bytes at `pos` that obtained `got` of them. -/
  | read (pos n got : Nat)
  /-- A call of `fseek` at `pos` that left the position at `pos'`. -/
  | skip (pos : Nat) (kind : SkipKind) (pos' : Nat)
  deriving DecidableEq, Repr

/-- The stream `fp` during `load`, as far as it changes: the read position, and
the movements the position has made so far, oldest first.  The bytes of the file
and its largest position do not change and are passed beside it. -/
structure FILE where
  pos : Nat
  moves : List Move
  deriving DecidableEq, Repr

/-- The stream after `fopen(model_file, "rb")`, for a file that exists. -/
def fopen : FILE := { pos := 0, moves := [] }

/-- The call `fread(buf, n, 1, fp)` on a buffer that holds `buf`: the buffer
after the call and the stream after the call.  The bytes that remain in the
file, at most `n`, are copied to the front of the buffer and the position
advances by their number; the rest of the buffer keeps what it held (this is
what the C library does on a short read; the C standard leaves the value of a
partly read object open).  The source does not look at the result of `fread`,
so a short read goes unnoticed. -/
def fread (bytes : List Nat) (fp : FILE) (buf : List Nat) (n : Nat) : List Nat × FILE :=
  let got := (bytes.drop fp.pos).take n
  (got ++ (buf.take n).drop got.length,
    { pos := fp.pos + got.length, moves := fp.moves ++ [.read fp.pos n got.length] })

/-- The call `fseek(fp, offset, SEEK_CUR)` for one of the three offsets of `load`. -/
def fseek (limit : Nat) (fp : FILE) (kind : SkipKind) : FILE :=
  { pos := fseekCur limit fp.pos kind.offset
    moves := fp.moves ++ [.skip fp.pos kind (fseekCur limit fp.pos kind.offset)] }

/-- The pair `fread(&len, sizeof(len), 1, fp); fseek(fp, len, SEEK_CUR);` on the
variable `len` that holds the bytes `len`: the bytes of `len` and the stream
after it. -/
def skipBlock (bytes : List Nat) (limit : Nat) (fp : FILE) (len : List Nat) : List Nat × FILE :=
  let r := fread bytes fp len 8
  (r.1, fseek limit r.2 (.block (leNat r.1)))

/-- How a call of `load` ends. -/
inductive Loaded where
  /-- The call returned; `tree_` holds this. -/
  | ok (tree_ : GBTree)
  /-- A `resize` was given a negative count, which as a `size_t` exceeds
  `max_size()`: `std::length_error` leaves `load`. -/
  | lengthError
  deriving DecidableEq, Repr

/-- The loop `for(int j = 0; j < tree_param.num_nodes; j++) fread(&tree_[i][j], ...)`:
the nodes of the tree after it and the stream after it.  Each node is read into
the all-zero record that `tree_[i].resize` created. -/
def readNodes (bytes : List Nat) : Nat → FILE → List Node × FILE
  | 0, fp => ([], fp)
  | n + 1, fp =>
    let r := fread bytes fp (List.replicate sizeof_node 0) sizeof_node
    let s := readNodes bytes n r.2
    (decodeNode r.1 :: s.1, s.2)

/-- Puts the tree just read in front of the trees read after it. -/
def Loaded.cons (tree : List Node) : Loaded → Loaded
  | .ok tree_ => .ok (tree :: tree_)
  | .lengthError => .lengthError

/-- The bytes that the local variables of `load` hold before they are first
written.  The source declares `len`, `gbtree_model_param` and `tree_param`
without initialising them, and `tree_param` anew in each pass of the loop, so
their content is whatever the stack holds: `tree_param i` is the content at the
start of pass `i`. -/
structure Locals where
  len : List Nat
  gbtree_model_param : List Nat
  tree_param : Nat → List Nat

/-- What one pass of the loop over the trees leaves behind: the nodes of the
tree, or `none` when `resize` was given a negative `num_nodes`; the bytes of the
variable `len`; and the stream. -/
structure TreeRead where
  nodes : Option (List Node)
  len : List Nat
  fp : FILE

/-- The body of the loop `for(size_t i = 0; i < tree_.size(); i++)` of `load`,
entered with `tree_param` and `len` holding the given bytes. -/
def readTree (bytes : List Nat) (limit : Nat) (tree_param len : List Nat) (fp : FILE) :
    TreeRead :=
  -- TreeParam
  let p := fread bytes fp tree_param sizeof_tree_param
  let num_nodes := int32At p.1 4
  let size_leaf_vector := int32At p.1 20
  if num_nodes < 0 then { nodes := none, len := len, fp := p.2 }
  else
    -- Node
    let r := readNodes bytes num_nodes.toNat p.2
    -- NodeStat
    let fp := fseek limit r.2 (.stats num_nodes)
    -- leaf_vector
    if size_leaf_vector ≠ 0 then
      let s := skipBlock bytes limit fp len
      { nodes := some r.1, len := s.1, fp := s.2 }
    else { nodes := some r.1, len := len, fp := fp }

/-- The loop `for(size_t i = 0; i < tree_.size(); i++)` of `load`, at pass `i`
with `todo` trees still to read: the trees read and the stream at the end. -/
def readTrees (bytes : List Nat) (limit : Nat) (g : Locals) :
    Nat → Nat → List Nat → FILE → Loaded × FILE
  | 0, _, _, fp => (.ok [], fp)
  | todo + 1, i, len, fp =>
    let t := readTree bytes limit (g.tree_param i) len fp
    match t.nodes with
    | none => (.lengthError, t.fp)
    | some nodes =>
      let rest := readTrees bytes limit g todo (i + 1) t.len t.fp
      (rest.1.cons nodes, rest.2)

/-- The run of `GBTree::load` on a `GBTree` whose `tree_` is empty: how the call
ends, and the stream at its end.  `bytes` is the content of the model file, `lim`
the largest offset of its file system and `g` the initial content of the local
variables. -/
def loadRun (lim : Nat) (g : Locals) (bytes : List Nat) : Loaded × FILE :=
  let limit := offsetLimit lim bytes
  -- LearnerModelParam
  let fp := fseek limit fopen .header
  -- name_obj_
  let s := skipBlock bytes limit fp g.len
  -- name_gbm_
  let s := skipBlock bytes limit s.2 s.1
  -- GBTreeModelParam
  let p := fread bytes s.2 g.gbtree_model_param sizeof_gbtree_model_param
  let num_trees := int32At p.1 0
  if num_trees < 0 then (.lengthError, p.2)
  else readTrees bytes limit g num_trees.toNat 0 s.1 p.2

/-- The method `GBTree::load`: the ensemble it leaves in `tree_`. -/
def load (lim : Nat) (g : Locals) (bytes : List Nat) : Loaded :=
  (loadRun lim g bytes).1

/-- The movements of the read position during `load`, in order. -/
def loadTrace (lim : Nat) (g : Locals) (bytes : List Nat) : List Move :=
  (loadRun lim g bytes).2.moves

/-! ## The documented layout of a model file

The format as the data model describes it, independent of `load`: a 136-byte
header, two length-prefixed names, the 160-byte ensemble-parameter block, and
per tree a 148-byte tree-parameter block, `num_nodes` 20-byte node records,
`num_nodes` 16-byte statistic records and, when `size_leaf_vector != 0`, one
length-prefixed leaf-vector block.  Bytes after the last tree are not described. -/

/-- The little-endian encoding of `n` on `width` bytes. -/
def leBytes : Nat → Nat → List Nat
  | 0, _ => []
  | width + 1, n => n % 256 :: leBytes width (n / 256)

/-- The four bytes of an `int` (two's complement, little-endian). -/
def encodeInt32 (x : Int) : List Nat := leBytes 4 (x % 2 ^ 32).toNat

/-- The 20-byte record of a node: the five fields in declaration order. -/
def encodeNode (nd : Node) : List Nat :=
  encodeInt32 nd.parent_ ++ encodeInt32 nd.cleft_ ++ encodeInt32 nd.cright_ ++
    leBytes 4 nd.sindex_ ++ leBytes 4 nd.info_

/-- The fields of a node fit their C types: three `int`, one `unsigned` and a
32-bit payload. -/
def Node.Fits (nd : Node) : Prop :=
  (-2 ^ 31 ≤ nd.parent_ ∧ nd.parent_ < 2 ^ 31) ∧ (-2 ^ 31 ≤ nd.cleft_ ∧ nd.cleft_ < 2 ^ 31) ∧
  (-2 ^ 31 ≤ nd.cright_ ∧ nd.cright_ < 2 ^ 31) ∧ nd.sindex_ < 2 ^ 32 ∧ nd.info_ < 2 ^ 32

/-- A length-prefixed block: the 8-byte length, then the payload. -/
def lengthPrefixed (payload : List Nat) : List Nat :=
  leBytes 8 payload.length ++ payload

/-- Concatenation of a sequence of records. -/
def concatRecords : List (List Nat) → List Nat
  | [] => []
  | r :: rs => r ++ concatRecords rs

/-- Modelled from the spec: the part of a model file that belongs to one tree,
that is its tree-parameter block, its node records, its node-statistics records
and the payload of its leaf-vector block when it has one. -/
structure TreeSection where
  tree_param : List Nat
  nodes : List (List Nat)
  stats : List Nat
  leaf_vector : Option (List Nat)

namespace TreeSection

/-- The optional leaf-vector block of a tree section. -/
def leafBlock (t : TreeSection) : List Nat :=
  match t.leaf_vector with
  | none => []
  | some payload => lengthPrefixed payload

/-- The bytes of one tree section, in file order. -/
def bytes (t : TreeSection) : List Nat :=
  t.tree_param ++ concatRecords t.nodes ++ t.stats ++ t.leafBlock

/-- The section has the documented sizes and its counts are non-negative: the
`num_nodes` field (offset 4) is the number of node records, and the
`size_leaf_vector` field (offset 20) is non-zero exactly when the block is there. -/
structure Valid (t : TreeSection) : Prop where
  param_size : t.tree_param.length = sizeof_tree_param
  num_nodes : int32At t.tree_param 4 = (t.nodes.length : Int)
  node_size : ∀ r ∈ t.nodes, r.length = sizeof_node
  stats_size : t.stats.length = 16 * t.nodes.length
  leaf_flag : int32At t.tree_param 20 ≠ 0 ↔ t.leaf_vector.isSome = true

/-- The bytes of a tree section up to the last one `load` reads: the parameters
and the node records and, when there is a leaf-vector block, the statistics and
the 8-byte length of the block. -/
def readPart (t : TreeSection) : List Nat :=
  t.tree_param ++ concatRecords t.nodes ++
    (match t.leaf_vector with
     | none => []
     | some payload => t.stats ++ leBytes 8 payload.length)

end TreeSection

/-- Concatenation of the tree sections of a file. -/
def treesBytes : List TreeSection → List Nat
  | [] => []
  | t :: ts => t.bytes ++ treesBytes ts

/-- Modelled from the spec: a model file cut into its documented sections, that
is the learner header, the two component names, the ensemble-parameter block, the
tree sections in order, and whatever follows the last tree. -/
structure ModelFile where
  header : List Nat
  name_obj : List Nat
  name_gbm : List Nat
  gbtree_model_param : List Nat
  trees : List TreeSection
  trailing : List Nat

namespace ModelFile

/-- The bytes of the file up to the first tree section. -/
def preamble (m : ModelFile) : List Nat :=
  m.header ++ lengthPrefixed m.name_obj ++ lengthPrefixed m.name_gbm ++ m.gbtree_model_param

/-- The bytes of the file, in file order. -/
def bytes (m : ModelFile) : List Nat :=
  m.preamble ++ treesBytes m.trees ++ m.trailing

/-- The file has the documented sizes, its `num_trees` field (offset 0 of the
ensemble-parameter block) is the number of tree sections, and its size fits
the `long` offset of `fseek`. -/
structure Valid (m : ModelFile) : Prop where
  header_size : m.header.length = 136
  param_size : m.gbtree_model_param.length = sizeof_gbtree_model_param
  num_trees : int32At m.gbtree_model_param 0 = (m.trees.length : Int)
  trees_valid : ∀ t ∈ m.trees, t.Valid
  file_size : m.bytes.length < 2 ^ 63

/-- The bytes of the file up to the last one `load` reads: everything up to the
last tree section, and the `readPart` of that section. -/
def readPrefix (m : ModelFile) : List Nat :=
  m.preamble ++ treesBytes m.trees.dropLast ++
    (match m.trees.getLast? with
     | none => []
     | some t => t.readPart)

/-- The ensemble the file describes: node `j` of tree `i` is the `j`-th node
record of the `i`-th tree section. -/
def ensemble (m : ModelFile) : GBTree :=
  m.trees.map fun t => t.nodes.map decodeNode

end ModelFile

/-- Modelled from the spec: the section written for one in-memory tree and its
optional leaf-vector payload.  `num_nodes` and `size_leaf_vector` are set from
the tree; the other parameter fields and the node statistics are written as zero. -/
def writeTree (tree : List Node) (leaf_vector : Option (List Nat)) : TreeSection :=
  { tree_param :=
      leBytes 4 0 ++ encodeInt32 tree.length ++ leBytes 12 0 ++
        encodeInt32 (if leaf_vector.isSome then 1 else 0) ++ leBytes 124 0
    nodes := tree.map encodeNode
    stats := List.replicate (16 * tree.length) 0
    leaf_vector := leaf_vector }

/-- Modelled from the spec: the model file written from an in-memory ensemble,
each tree with its optional leaf-vector payload, under a given header and given
component names.  `num_trees` is set from the ensemble; the other fields of the
ensemble-parameter block are written as zero, and nothing follows the last tree. -/
def writeModel (header name_obj name_gbm : List Nat)
    (trees : List (List Node × Option (List Nat))) : ModelFile :=
  { header := header
    name_obj := name_obj
    name_gbm := name_gbm
    gbtree_model_param := encodeInt32 trees.length ++ leBytes 156 0
    trees := trees.map fun t => writeTree t.1 t.2
    trailing := [] }

/-! ## Concrete files used to instantiate the theorems -/

/-- The all-zero node record: a non-leaf whose two children are position 0. -/
def zeroNode : Node := ⟨0, 0, 0, 0, 0⟩

/-- A tree section of 148 zero bytes: it declares no node and no leaf vector. -/
def zeroSection : TreeSection :=
  { tree_param := List.replicate 148 0, nodes := [], stats := [], leaf_vector := none }

/-- The file written from a two-tree ensemble: `n` all-zero nodes, then `leafTree`;
zero header, empty names, no leaf vectors. -/
def overflowFile (n : Nat) : ModelFile :=
  writeModel (List.replicate 136 0) [] [] [(List.replicate n zeroNode, none), (leafTree, none)]

/-- The file written from the one-tree ensemble `[leafTree]`: 496 bytes, the last
16 of which are the node statistics of the tree. -/
def smallFile : ModelFile :=
  writeModel (List.replicate 136 0) [] [] [(leafTree, none)]

/-- The file written from the one-tree ensemble whose only node is `zeroNode`. -/
def loopFile : ModelFile :=
  writeModel (List.replicate 136 0) [] [] [([zeroNode], none)]

/-- The first tree section of `overflowFile n`, with the given bytes in place of
its node statistics. -/
def statsTree (n : Nat) (stats : List Nat) : TreeSection :=
  { writeTree (List.replicate n zeroNode) none with stats := stats }

/-- The file `overflowFile n` with the given bytes in place of the node statistics
of its first tree; nothing else is changed. -/
def statsFile (n : Nat) (stats : List Nat) : ModelFile :=
  { overflowFile n with trees := [statsTree n stats, writeTree leafTree none] }

/-- A tree section that declares one node, the all-zero record, and no leaf
vector: 148 bytes with `num_nodes = 1`, then 20 zero bytes. -/
def oneNodeSection : TreeSection :=
  { tree_param := [0, 0, 0, 0, 1, 0, 0, 0] ++ List.replicate 140 0
    nodes := [List.replicate 20 0]
    stats := List.replicate 16 0
    leaf_vector := none }

/-- Node statistics of `16 * n` bytes that begin like `oneNodeSection`: they are
zero but for the fifth byte, which is 1. -/
def markedStats (n : Nat) : List Nat :=
  oneNodeSection.readPart ++ List.replicate (16 * n - 168) 0


/-! ## The read position during `load` -/

/-- The byte count the skip is meant to advance by: the format constant or the
length just read. -/
def SkipKind.amount : SkipKind → Int
  | .header => 136
  | .block len => (len : Int)
  | .stats num_nodes => 16 * num_nodes

/-- The value read fits the type it is converted to: a length below `2^63`, a
node count below `2^27`. -/
def SkipKind.InRange : SkipKind → Prop
  | .header => True
  | .block len => len < 2 ^ 63
  | .stats num_nodes => num_nodes < 2 ^ 27

/-- The read position before the movement. -/
def Move.before : Move → Nat
  | .read pos _ _ => pos
  | .skip pos _ _ => pos

/-- The read position after the movement. -/
def Move.after : Move → Nat
  | .read pos _ got => pos + got
  | .skip _ _ pos' => pos'

/-- The movement is a read, or a skip of a value that is `InRange`. -/
def Move.InRange : Move → Prop
  | .read _ _ _ => True
  | .skip _ kind _ => kind.InRange

/-- The movement is a read, or a skip that advanced the position by exactly its
`amount`. -/
def Move.Exact : Move → Prop
  | .read _ _ _ => True
  | .skip pos kind pos' => (pos' : Int) = pos + kind.amount

/-- The movement is a read, or a skip whose target, the position plus its
`amount`, is at most `limit`. -/
def Move.Within (limit : Nat) : Move → Prop
  | .read _ _ _ => True
  | .skip pos kind _ => (pos : Int) + kind.amount ≤ limit

/-- The movements follow one another: each starts where the one before ended,
the first at `pos`. -/
inductive Contiguous : Nat → List Move → Prop where
  /-- No movement. -/
  | nil (pos : Nat) : Contiguous pos []
  /-- A movement `m`, then movements that start where `m` ended. -/
  | cons (m : Move) (ms : List Move) : Contiguous m.after ms → Contiguous m.before (m :: ms)

/-- The position after the movements, started from `pos`. -/
def endPos : Nat → List Move → Nat
  | pos, [] => pos
  | _, m :: ms => endPos m.after ms

/-- The movement is what the source does on a file whose largest position is
`limit`: a read obtains at most the bytes it asks for; a skip ends where `fseek`
with the converted offset leaves the position, and the node count of a
statistics skip is not negative (a negative one ends `load` in `resize` before
the skip). -/
def Move.Sound (limit : Nat) : Move → Prop
  | .read _ n got => got ≤ n
  | .skip pos kind pos' =>
    pos' = fseekCur limit pos kind.offset ∧
      match kind with
      | .stats num_nodes => 0 ≤ num_nodes
      | _ => True

/-- The log of the stream is in step with it: the movements follow one another
from position 0 to the current position, and each is `Sound`. -/
def FILE.Logged (limit : Nat) (fp : FILE) : Prop :=
  Contiguous 0 fp.moves ∧ endPos 0 fp.moves = fp.pos ∧ ∀ m ∈ fp.moves, m.Sound limit

/-- A file of 144 bytes: a zero header and a length of `2^64 - 1`. -/
def backSeekFile : List Nat := List.replicate 136 0 ++ List.replicate 8 255

/-- Local variables that hold zero bytes before they are first written. -/
def zeroLocals : Locals :=
  { len := List.replicate 8 0
    gbtree_model_param := List.replicate 160 0
    tree_param := fun _ => List.replicate 148 0 }

instance (kind : SkipKind) : Decidable kind.InRange := by
  cases kind <;> unfold SkipKind.InRange <;> infer_instance

instance (m : Move) : Decidable m.InRange := by
  cases m <;> unfold Move.InRange <;> infer_instance

instance (m : Move) : Decidable m.Exact := by
  cases m <;> unfold Move.Exact <;> infer_instance

instance (limit : Nat) (m : Move) : Decidable (m.Within limit) := by
  cases m <;> unfold Move.Within <;> infer_instance

/-! ## Further trees and mappings used to instantiate the theorems -/

/-- The mapping without its entries of negative key. -/
def dropNegativeKeys (feat : FeatMap) : FeatMap := fun k => if k < 0 then none else feat k

/-- Three trees of one split each, on features 0, 1 and 2: thresholds `0.5`
(default left), `1.5` (default right) and `-1.0` (default right); in each the
left leaf is at position 1 and the right leaf at position 2. -/
def threeSplits : GBTree :=
  [[⟨-1, 1, 2, 2147483648, 0x3F000000⟩, leafNode, leafNode],
   [⟨-1, 1, 2, 1, 0x3FC00000⟩, leafNode, leafNode],
   [⟨-1, 1, 2, 2, 0xBF800000⟩, leafNode, leafNode]]

/-- The mapping `{0: 0.25, 1: 2.0, 2: -1.0}`, which covers the features that
`threeSplits` tests. -/
def threeFeatures : FeatMap := featOfList [(0, 0x3E800000), (1, 0x40000000), (2, 0xBF800000)]

/-- A tree whose root has both children at position 5, outside the tree. -/
def danglingTree : List Node := [⟨-1, 5, 5, 0, 0⟩]

/-! # Lemmas and theorems -/

open Relation

/-! ## Node accessors and one traversal step -/


theorem f32lt_irrefl (a : bst_float) : f32lt a a = false := by
  simp [f32lt]

theorem f32lt_of_f32eq {a b : bst_float} (h : f32eq a b = true) : f32lt a b = false := by
  simp only [f32eq, Bool.and_eq_true, decide_eq_true_eq] at h
  simp [f32lt, h.2]

theorem split_index_eq_mod (n : Node) : n.split_index = n.sindex_ % 2 ^ 31 := by
  unfold Node.split_index
  rw [Nat.one_shiftLeft, Nat.and_pow_two_sub_one_eq_mod]

theorem default_left_iff (n : Node) : n.default_left = true ↔ 2 ^ 31 ≤ n.sindex_ := by
  unfold Node.default_left
  rw [Nat.shiftRight_eq_div_pow, bne_iff_ne, Ne, Nat.div_eq_zero_iff (by norm_num : 0 < 2 ^ 31)]
  omega

theorem split_index_lt (n : Node) : n.split_index < 2 ^ 31 := by
  rw [split_index_eq_mod]; exact Nat.mod_lt _ (by norm_num)

theorem unsignedToInt_split_index (n : Node) :
    unsignedToInt n.split_index = (n.split_index : Int) := by
  have h := split_index_lt n
  unfold unsignedToInt
  have h2 : n.split_index % 2 ^ 32 = n.split_index := Nat.mod_eq_of_lt (by omega)
  rw [h2, if_pos h]

theorem nodeAt_eq {tree_ : GBTree} {i : Nat} {tree : List Node} (h : tree_[i]? = some tree)
    (pid : Int) : nodeAt tree_ i pid = treeAt tree pid := by
  simp [nodeAt, h]

theorem nodeAt_single (tree : List Node) (pid : Int) : nodeAt [tree] 0 pid = treeAt tree pid :=
  nodeAt_eq (by simp) pid

/-- The loop body in terms of the node it reads. -/
theorem stepPid_of_node {tree_ : GBTree} (feat : FeatMap) {i : Nat} {pid : Int} {nd : Node}
    (h : nodeAt tree_ i pid = some nd) :
    stepPid tree_ feat i pid =
      some (match feat (nd.split_index : Int) with
        | none => nd.cdefault
        | some v => if f32lt v nd.split_cond then nd.cleft else nd.cright) := by
  unfold stepPid GetNext
  simp only [h, unsignedToInt_split_index]
  cases feat (nd.split_index : Int) with
  | none => simp
  | some v => by_cases hv : f32lt v nd.split_cond = true <;> simp [hv]

/-! ## Termination of the traversal on well-formed trees -/

theorem treeAt_some {tree : List Node} {p : Int} {nd : Node} (h : treeAt tree p = some nd) :
    InRange tree p ∧ nd ∈ tree := by
  unfold treeAt at h
  split at h
  · rename_i h0
    obtain ⟨hlt, hget⟩ := List.getElem?_eq_some.1 h
    refine ⟨⟨h0, by omega⟩, ?_⟩
    rw [← hget]; exact List.getElem_mem _
  · cases h

theorem treeAt_of_inRange {tree : List Node} {p : Int} (h : InRange tree p) :
    ∃ nd, treeAt tree p = some nd := by
  obtain ⟨h0, h1⟩ := h
  have hlt : p.toNat < tree.length := by omega
  exact ⟨tree[p.toNat], by simp [treeAt, h0, List.getElem?_eq_getElem hlt]⟩

theorem child_of_step {tree_ : GBTree} (feat : FeatMap) {i : Nat} {tree : List Node}
    (ht : tree_[i]? = some tree) {p : Int} {nd : Node} (hp : treeAt tree p = some nd)
    (hl : nd.is_leaf = false) :
    ∃ q, stepPid tree_ feat i p = some q ∧ Child tree p q := by
  have hn : nodeAt tree_ i p = some nd := by rw [nodeAt_eq ht]; exact hp
  rw [stepPid_of_node feat hn]
  refine ⟨_, rfl, nd, hp, hl, ?_⟩
  cases feat (nd.split_index : Int) with
  | none =>
    simp only [Node.cdefault]
    by_cases hd : nd.default_left = true <;> simp [hd]
  | some v =>
    by_cases hv : f32lt v nd.split_cond = true <;> simp [hv]

theorem child_inRange {tree : List Node} (wf : WellFormed tree) {p q : Int}
    (h : Child tree p q) : InRange tree q := by
  obtain ⟨nd, hp, hl, hq⟩ := h
  have hc := wf.children nd (treeAt_some hp).2 hl
  rcases hq with rfl | rfl
  · exact hc.1
  · exact hc.2

theorem reach_inRange {tree : List Node} (wf : WellFormed tree) {p : Int}
    (h : ReflTransGen (Child tree) 0 p) : InRange tree p := by
  cases h with
  | refl =>
    have := List.length_pos.2 wf.nonempty
    exact ⟨le_refl _, by exact_mod_cast this⟩
  | tail _ hc => exact child_inRange wf hc

theorem card_lt_of_not_mem {tree : List Node} {S : Finset Int} {p : Int}
    (hS : ∀ s ∈ S, InRange tree s) (hp : InRange tree p) (hn : p ∉ S) :
    S.card < tree.length := by
  have hsub : insert p S ⊆ Finset.Ico (0 : Int) tree.length := by
    intro x hx
    rw [Finset.mem_insert] at hx
    rw [Finset.mem_Ico]
    rcases hx with rfl | hx
    · exact hp
    · exact hS x hx
  have := Finset.card_le_card hsub
  rw [Finset.card_insert_of_not_mem hn, Int.card_Ico] at this
  simp at this
  omega

/-- Generalised termination: `S` is a set of positions already left behind on the path. -/
theorem walk_leaf_aux {tree_ : GBTree} {i : Nat} {tree : List Node}
    (ht : tree_[i]? = some tree) (wf : WellFormed tree) (feat : FeatMap) :
    ∀ (fuel : Nat) (p : Int) (S : Finset Int),
      (∀ s ∈ S, InRange tree s) → (∀ s ∈ S, TransGen (Child tree) s p) →
      ReflTransGen (Child tree) 0 p → tree.length ≤ S.card + fuel →
      ∃ q nd, walk tree_ feat i fuel p = .leaf q ∧ treeAt tree q = some nd ∧
        nd.is_leaf = true ∧ (∀ v ∈ visited tree_ feat i fuel p, InRange tree v) := by
  intro fuel
  induction fuel with
  | zero =>
    intro p S hS hpath hreach hcard
    have hp := reach_inRange wf hreach
    obtain ⟨nd, hnd⟩ := treeAt_of_inRange hp
    have hn : nodeAt tree_ i p = some nd := by rw [nodeAt_eq ht]; exact hnd
    by_cases hl : nd.is_leaf = true
    · refine ⟨p, nd, ?_, hnd, hl, ?_⟩
      · simp [walk, hn, hl]
      · simp [visited, hn, hl, hp]
    · exfalso
      have hnot : p ∉ S := fun hmem => wf.acyclic p hreach (hpath p hmem)
      have := card_lt_of_not_mem hS hp hnot
      omega
  | succ fuel ih =>
    intro p S hS hpath hreach hcard
    have hp := reach_inRange wf hreach
    obtain ⟨nd, hnd⟩ := treeAt_of_inRange hp
    have hn : nodeAt tree_ i p = some nd := by rw [nodeAt_eq ht]; exact hnd
    by_cases hl : nd.is_leaf = true
    · refine ⟨p, nd, ?_, hnd, hl, ?_⟩
      · simp [walk, hn, hl]
      · simp [visited, hn, hl, hp]
    · have hl' : nd.is_leaf = false := by simpa using hl
      obtain ⟨q, hq, hc⟩ := child_of_step feat ht hnd hl'
      have hnot : p ∉ S := fun hmem => wf.acyclic p hreach (hpath p hmem)
      obtain ⟨r, nr, hw, hr, hrl, hv⟩ := ih q (insert p S)
        (by
          intro s hs
          rcases Finset.mem_insert.1 hs with rfl | hs
          · exact hp
          · exact hS s hs)
        (by
          intro s hs
          rcases Finset.mem_insert.1 hs with rfl | hs
          · exact TransGen.single hc
          · exact TransGen.tail (hpath s hs) hc)
        (ReflTransGen.tail hreach hc)
        (by rw [Finset.card_insert_of_not_mem hnot]; omega)
      refine ⟨r, nr, ?_, hr, hrl, ?_⟩
      · rw [walk]; simp only [hn, hl', hq]; simpa using hw
      · rw [visited]; simp only [hn, hl', hq]
        intro v hv'
        simp at hv'
        rcases hv' with rfl | hv'
        · exact hp
        · exact hv v hv'

theorem childrenAfter_spec {tree : List Node} (h : childrenAfter tree = true) :
    tree ≠ [] ∧ ∀ (k : Nat) (nd : Node), tree[k]? = some nd → nd.is_leaf = false →
      ((k : Int) < nd.cleft ∧ nd.cleft < tree.length) ∧
      ((k : Int) < nd.cright ∧ nd.cright < tree.length) := by
  unfold childrenAfter at h
  simp only [Bool.and_eq_true, Bool.not_eq_true', List.all_eq_true, List.mem_range] at h
  obtain ⟨hne, hall⟩ := h
  refine ⟨by intro h0; simp [h0] at hne, ?_⟩
  intro k nd hk hl
  have hlt : k < tree.length := (List.getElem?_eq_some.1 hk).1
  have := hall k hlt
  simp only [hk, hl, Bool.false_or, Bool.and_eq_true, decide_eq_true_eq] at this
  exact this

theorem child_lt_of_childrenAfter {tree : List Node} (h : childrenAfter tree = true)
    {p q : Int} (hc : Child tree p q) : p < q ∧ InRange tree q := by
  obtain ⟨nd, hp, hl, hq⟩ := hc
  have hspec := (childrenAfter_spec h).2
  unfold treeAt at hp
  split at hp
  · rename_i h0
    have := hspec p.toNat nd hp hl
    have hcast : ((p.toNat : Nat) : Int) = p := Int.toNat_of_nonneg h0
    rw [hcast] at this
    rcases hq with rfl | rfl
    · exact ⟨this.1.1, by unfold InRange; omega⟩
    · exact ⟨this.2.1, by unfold InRange; omega⟩
  · cases hp

theorem wellFormed_of_childrenAfter {tree : List Node} (h : childrenAfter tree = true) :
    WellFormed tree := by
  refine ⟨(childrenAfter_spec h).1, ?_, ?_⟩
  · intro nd hmem hl
    obtain ⟨k, hk, hget⟩ := List.getElem_of_mem hmem
    have hk' : tree[k]? = some nd := by rw [List.getElem?_eq_getElem hk, hget]
    have := (childrenAfter_spec h).2 k nd hk' hl
    unfold InRange
    omega
  · intro p _ hcyc
    have key : ∀ a b, TransGen (Child tree) a b → a < b := by
      intro a b hab
      induction hab with
      | single hc => exact (child_lt_of_childrenAfter h hc).1
      | tail _ hc ih => exact lt_trans ih (child_lt_of_childrenAfter h hc).1
    exact lt_irrefl _ (key p p hcyc)

theorem walk_fuel_succ {tree_ : GBTree} {feat : FeatMap} {i : Nat} :
    ∀ (fuel : Nat) (p q : Int), walk tree_ feat i fuel p = .leaf q →
      walk tree_ feat i (fuel + 1) p = .leaf q := by
  intro fuel
  induction fuel with
  | zero =>
    intro p q h
    rw [walk] at h
    rw [walk]
    cases hn : nodeAt tree_ i p with
    | none => simp [hn] at h
    | some nd =>
      simp only [hn] at h ⊢
      by_cases hl : nd.is_leaf = true
      · simpa [hl] using h
      · simp [hl] at h
  | succ fuel ih =>
    intro p q h
    rw [walk] at h
    rw [walk]
    cases hn : nodeAt tree_ i p with
    | none => simp [hn] at h
    | some nd =>
      simp only [hn] at h ⊢
      by_cases hl : nd.is_leaf = true
      · simpa [hl] using h
      · simp only [hl] at h ⊢
        cases hs : stepPid tree_ feat i p with
        | none => simp [hs] at h
        | some nx =>
          simp only [hs] at h ⊢
          exact ih nx q h

theorem walk_fuel_mono {tree_ : GBTree} {feat : FeatMap} {i : Nat} {fuel : Nat} {p q : Int}
    (h : walk tree_ feat i fuel p = .leaf q) {fuel2 : Nat} (hle : fuel ≤ fuel2) :
    walk tree_ feat i fuel2 p = .leaf q := by
  induction fuel2, hle using Nat.le_induction with
  | base => exact h
  | succ n _ ih => exact walk_fuel_succ n p q ih

theorem visited_length_le {tree_ : GBTree} {feat : FeatMap} {i : Nat} :
    ∀ (fuel : Nat) (p : Int), (visited tree_ feat i fuel p).length ≤ fuel + 1 := by
  intro fuel
  induction fuel with
  | zero =>
    intro p
    rw [visited]
    cases hn : nodeAt tree_ i p with
    | none => simp
    | some nd => by_cases hl : nd.is_leaf = true <;> simp [hl]
  | succ fuel ih =>
    intro p
    rw [visited]
    cases hn : nodeAt tree_ i p with
    | none => simp
    | some nd =>
      by_cases hl : nd.is_leaf = true
      · simp [hl]
      · simp only [hl]
        cases hs : stepPid tree_ feat i p with
        | none => simp
        | some nx =>
          have := ih nx
          simp
          omega

/-! ## The `for` loop of `predict` -/

theorem resize_length (out_preds : List Int) (n : Nat) : (resize out_preds n).length = n := by
  simp [resize]
  omega

theorem predictLoop_ok {tree_ : GBTree} {feat : FeatMap} {fuel : Nat}
    (hw : ∀ j, j < tree_.length → ∃ q, walk tree_ feat j fuel 0 = .leaf q) :
    ∀ (todo i : Nat) (out : List Int), i + todo = tree_.length → out.length = tree_.length →
      ∃ res, predictLoop tree_ feat fuel todo i out = .ok res ∧ res.length = tree_.length ∧
        (∀ j, j < i → res[j]? = out[j]?) ∧
        (∀ j, i ≤ j → j < tree_.length →
          ∃ q, res[j]? = some q ∧ walk tree_ feat j fuel 0 = .leaf q) := by
  intro todo
  induction todo with
  | zero =>
    intro i out hi hlen
    refine ⟨out, by simp [predictLoop], hlen, fun _ _ => rfl, ?_⟩
    intro j h1 h2
    omega
  | succ todo ih =>
    intro i out hi hlen
    obtain ⟨q, hq⟩ := hw i (by omega)
    obtain ⟨res, hres, hl, hlow, hhigh⟩ := ih (i + 1) (out.set i q) (by omega) (by simpa using hlen)
    refine ⟨res, by simp [predictLoop, hq, hres], hl, ?_, ?_⟩
    · intro j hj
      rw [hlow j (by omega), List.getElem?_set_ne (by omega)]
    · intro j h1 h2
      rcases Nat.eq_or_lt_of_le h1 with rfl | hlt
      · refine ⟨q, ?_, hq⟩
        rw [hlow i (by omega), List.getElem?_set_self (by omega)]
      · exact hhigh j hlt h2

theorem predict_ok_of_walks {tree_ : GBTree} {feat : FeatMap} {fuel : Nat} (out_preds : List Int)
    (hw : ∀ j, j < tree_.length → ∃ q, walk tree_ feat j fuel 0 = .leaf q) :
    ∃ res, predict tree_ feat out_preds fuel = .ok res ∧ res.length = tree_.length ∧
      ∀ j, j < tree_.length → ∃ q, res[j]? = some q ∧ walk tree_ feat j fuel 0 = .leaf q := by
  obtain ⟨res, h1, h2, _, h4⟩ :=
    predictLoop_ok hw tree_.length 0 (resize out_preds tree_.length) (by omega) (resize_length _ _)
  exact ⟨res, h1, h2, fun j hj => h4 j (Nat.zero_le _) hj⟩

theorem stepPid_congr {tree_ : GBTree} {i : Nat} {tree : List Node} (ht : tree_[i]? = some tree)
    (feat : FeatMap) (p : Int) : stepPid tree_ feat i p = stepPid [tree] feat 0 p := by
  have h1 : ∀ q, nodeAt tree_ i q = nodeAt [tree] 0 q := by
    intro q; rw [nodeAt_eq ht, nodeAt_single]
  unfold stepPid GetNext
  simp only [h1]

theorem walk_congr {tree_ : GBTree} {i : Nat} {tree : List Node} (ht : tree_[i]? = some tree)
    (feat : FeatMap) : ∀ (fuel : Nat) (p : Int),
      walk tree_ feat i fuel p = walk [tree] feat 0 fuel p := by
  have h1 : ∀ q, nodeAt tree_ i q = nodeAt [tree] 0 q := by
    intro q; rw [nodeAt_eq ht, nodeAt_single]
  intro fuel
  induction fuel with
  | zero => intro p; simp only [walk, h1]
  | succ fuel ih =>
    intro p
    simp only [walk, h1, stepPid_congr ht, ih]

theorem predict_single {tree : List Node} {feat : FeatMap} {fuel : Nat} {q : Int}
    (h : walk [tree] feat 0 fuel 0 = .leaf q) (out_preds : List Int) :
    predict [tree] feat out_preds fuel = .ok [q] := by
  unfold predict
  simp only [List.length_singleton, predictLoop, h]
  cases out_preds <;> simp [resize]

theorem walk_leaf_of_wellFormed (tree_ : GBTree) (i : Nat) {tree : List Node}
    (ht : tree_[i]? = some tree) (wf : WellFormed tree) (feat : FeatMap) {fuel : Nat}
    (hfuel : tree.length ≤ fuel) :
    ∃ q nd, walk tree_ feat i fuel 0 = .leaf q ∧ treeAt tree q = some nd ∧
        nd.is_leaf = true ∧ (∀ v ∈ visited tree_ feat i fuel 0, InRange tree v) :=
  walk_leaf_aux ht wf feat fuel 0 ∅ (by simp) (by simp) ReflTransGen.refl (by simpa using hfuel)

theorem walk_selfLoop (feat : FeatMap) (fuel : Nat) :
    walk [[zeroNode]] feat 0 fuel 0 = .outOfFuel 0 := by
  induction fuel with
  | zero => rfl
  | succ fuel ih =>
    rw [walk]
    have hn : nodeAt [[zeroNode]] 0 0 = some zeroNode := rfl
    rw [stepPid_of_node feat hn]
    simp only [hn]
    have : zeroNode.is_leaf = false := rfl
    simp only [this]
    cases feat _ with
    | none => simpa [Node.cdefault, Node.cleft, Node.cright, zeroNode] using ih
    | some v => simpa [Node.cdefault, Node.cleft, Node.cright, zeroNode] using ih

/-! ## Insensitivity of the traversal to leaf payloads and parent links -/

theorem sameSplits_is_leaf {a b : Node} (h : SameSplits a b) : b.is_leaf = a.is_leaf := by
  unfold Node.is_leaf; rw [h.1]

theorem forall₂_getElem? {α β : Type} {R : α → β → Prop} {l₁ : List α} {l₂ : List β}
    (h : List.Forall₂ R l₁ l₂) (i : Nat) :
    (l₁[i]? = none ∧ l₂[i]? = none) ∨ ∃ a b, l₁[i]? = some a ∧ l₂[i]? = some b ∧ R a b := by
  induction h generalizing i with
  | nil => left; simp
  | cons hab _ ih =>
    cases i with
    | zero => right; exact ⟨_, _, by simp, by simp, hab⟩
    | succ i => simpa using ih i

theorem nodeAt_same {g h : GBTree} (hs : SameEnsemble g h) (i : Nat) (p : Int) :
    (nodeAt g i p = none ∧ nodeAt h i p = none) ∨
      ∃ a b, nodeAt g i p = some a ∧ nodeAt h i p = some b ∧ SameSplits a b := by
  rcases forall₂_getElem? hs i with ⟨h1, h2⟩ | ⟨t1, t2, h1, h2, hr⟩
  · left; simp [nodeAt, h1, h2]
  · rw [nodeAt_eq h1, nodeAt_eq h2]
    unfold treeAt
    by_cases h0 : 0 ≤ p
    · simp only [h0, if_true]
      exact forall₂_getElem? hr p.toNat
    · left; simp [h0]

theorem walk_same {g h : GBTree} (hs : SameEnsemble g h) (feat : FeatMap) (i : Nat) :
    ∀ (fuel : Nat) (p : Int), walk g feat i fuel p = walk h feat i fuel p := by
  intro fuel
  induction fuel with
  | zero =>
    intro p
    rcases nodeAt_same hs i p with ⟨h1, h2⟩ | ⟨a, b, h1, h2, hr⟩
    · simp [walk, h1, h2]
    · simp [walk, h1, h2, sameSplits_is_leaf hr]
  | succ fuel ih =>
    intro p
    rcases nodeAt_same hs i p with ⟨h1, h2⟩ | ⟨a, b, h1, h2, hr⟩
    · simp [walk, h1, h2]
    · rw [walk, walk, stepPid_of_node feat h1, stepPid_of_node feat h2]
      simp only [h1, h2, sameSplits_is_leaf hr]
      by_cases hl : a.is_leaf = true
      · simp [hl]
      · have hl' : a.is_leaf = false := by simpa using hl
        obtain ⟨e1, e2, e3, e4⟩ := hr
        have e4' := e4 hl'
        simp only [hl', Node.split_index, Node.cdefault, Node.default_left, Node.cleft,
          Node.cright, Node.split_cond, e1, e2, e3, e4', ih]

theorem predictLoop_same {g h : GBTree} (hs : SameEnsemble g h) (feat : FeatMap) (fuel : Nat) :
    ∀ (todo i : Nat) (out : List Int),
      predictLoop g feat fuel todo i out = predictLoop h feat fuel todo i out := by
  intro todo
  induction todo with
  | zero => intro i out; rfl
  | succ todo ih =>
    intro i out
    simp only [predictLoop, walk_same hs, ih]

/-! ## One step of the loop -/

theorem walk_step {tree_ : GBTree} (feat : FeatMap) {i : Nat} {pid : Int} {nd : Node}
    (hn : nodeAt tree_ i pid = some nd) (hl : nd.is_leaf = false) (fuel : Nat) :
    walk tree_ feat i (fuel + 1) pid =
      walk tree_ feat i fuel (match feat (nd.split_index : Int) with
        | none => nd.cdefault
        | some v => if f32lt v nd.split_cond then nd.cleft else nd.cright) := by
  rw [walk, stepPid_of_node feat hn]
  simp only [hn, hl]
  rfl

/-! ## Further lemmas on the traversal -/

/-- When the walk of every tree ends at the leaf listed for it, `predict` returns the list. -/
theorem predict_eq_of_walks {tree_ : GBTree} {feat : FeatMap} {fuel : Nat} (out_preds : List Int)
    (qs : List Int) (hlen : qs.length = tree_.length)
    (hw : ∀ j q, qs[j]? = some q → walk tree_ feat j fuel 0 = .leaf q) :
    predict tree_ feat out_preds fuel = .ok qs := by
  have hw' : ∀ j, j < tree_.length → ∃ q, walk tree_ feat j fuel 0 = .leaf q := by
    intro j hj
    have hj' : j < qs.length := by omega
    exact ⟨qs[j], hw j _ (List.getElem?_eq_getElem hj')⟩
  obtain ⟨res, h1, h2, h3⟩ := predict_ok_of_walks out_preds hw'
  rw [h1]
  congr 1
  apply List.ext_getElem?
  intro j
  by_cases hj : j < tree_.length
  · obtain ⟨q, hq1, hq2⟩ := h3 j hj
    have hj' : j < qs.length := by omega
    have := hw j _ (List.getElem?_eq_getElem hj')
    rw [hq2] at this
    rw [hq1, List.getElem?_eq_getElem hj']
    injection this with e
    rw [e]
  · rw [List.getElem?_eq_none (by omega), List.getElem?_eq_none (by omega)]

theorem walk_threeSplits (fuel : Nat) (j : Nat) (q : Int) (h : [1, 2, 2][j]? = some q) :
    walk threeSplits threeFeatures j (fuel + 1) 0 = .leaf q := by
  have h1 : ∀ j q, [(1 : Int), 2, 2][j]? = some q →
      walk threeSplits threeFeatures j 1 0 = .leaf q := by
    intro j q hq
    match j, hq with
    | 0, hq => simp at hq; subst hq; decide
    | 1, hq => simp at hq; subst hq; decide
    | 2, hq => simp at hq; subst hq; decide
    | (n + 3), hq => simp at hq
  exact walk_fuel_mono (h1 j q h) (by omega)

theorem predict_single_outOfBounds {tree : List Node} {feat : FeatMap} {fuel : Nat} {p : Int}
    (h : walk [tree] feat 0 fuel 0 = .outOfBounds p) (out_preds : List Int) :
    predict [tree] feat out_preds fuel = .outOfBounds 0 p := by
  unfold predict
  simp only [List.length_singleton, predictLoop, h]

theorem predict_single_outOfFuel {tree : List Node} {feat : FeatMap} {fuel : Nat} {p : Int}
    (h : walk [tree] feat 0 fuel 0 = .outOfFuel p) (out_preds : List Int) :
    predict [tree] feat out_preds fuel = .outOfFuel 0 := by
  unfold predict
  simp only [List.length_singleton, predictLoop, h]

/-- The loop reads any position it reaches: a reached position outside the tree
is read out of bounds. -/
theorem walk_outOfBounds_of_visited {tree_ : GBTree} {feat : FeatMap} {i : Nat} {p : Int}
    (hp : nodeAt tree_ i p = none) :
    ∀ (fuel : Nat) (start : Int), p ∈ visited tree_ feat i fuel start →
      walk tree_ feat i fuel start = .outOfBounds p := by
  intro fuel
  induction fuel with
  | zero =>
    intro start hmem
    simp only [visited, List.mem_singleton] at hmem
    subst hmem
    simp [walk, hp]
  | succ fuel ih =>
    intro start hmem
    rw [visited] at hmem
    rw [walk]
    cases hn : nodeAt tree_ i start with
    | none =>
      simp only [hn, List.mem_singleton] at hmem
      subst hmem
      rfl
    | some nd =>
      simp only [hn] at hmem ⊢
      by_cases hl : nd.is_leaf = true
      · simp only [hl, if_true, List.mem_singleton] at hmem
        subst hmem
        rw [hp] at hn
        cases hn
      · have hl' : nd.is_leaf = false := by simpa using hl
        rw [stepPid_of_node feat hn] at hmem ⊢
        simp only [hl', Bool.false_eq_true, if_false, List.mem_cons] at hmem ⊢
        rcases hmem with heq | hmem
        · rw [heq, hn] at hp
          cases hp
        · exact ih _ hmem

/-- A set of non-leaf positions that the step never leaves: the loop started in
it is still running after any number of steps. -/
theorem walk_trapped {tree_ : GBTree} {feat : FeatMap} {i : Nat} (S : List Int)
    (hS : ∀ p ∈ S, ∃ nd q, nodeAt tree_ i p = some nd ∧ nd.is_leaf = false ∧
      stepPid tree_ feat i p = some q ∧ q ∈ S) :
    ∀ (fuel : Nat) (p : Int), p ∈ S → ∃ q, walk tree_ feat i fuel p = .outOfFuel q := by
  intro fuel
  induction fuel with
  | zero =>
    intro p hp
    obtain ⟨nd, q, hn, hl, _, _⟩ := hS p hp
    exact ⟨p, by simp [walk, hn, hl]⟩
  | succ fuel ih =>
    intro p hp
    obtain ⟨nd, q, hn, hl, hs, hq⟩ := hS p hp
    obtain ⟨r, hr⟩ := ih q hq
    exact ⟨r, by rw [walk]; simp only [hn, hl, hs]; simpa using hr⟩

theorem stepPid_dropNegativeKeys (tree_ : GBTree) (feat : FeatMap) (i : Nat) (pid : Int) :
    stepPid tree_ (dropNegativeKeys feat) i pid = stepPid tree_ feat i pid := by
  unfold stepPid
  cases nodeAt tree_ i pid with
  | none => rfl
  | some nd =>
    simp only [unsignedToInt_split_index, dropNegativeKeys]
    rw [if_neg (by omega)]

theorem walk_dropNegativeKeys (tree_ : GBTree) (feat : FeatMap) (i : Nat) :
    ∀ (fuel : Nat) (pid : Int),
      walk tree_ (dropNegativeKeys feat) i fuel pid = walk tree_ feat i fuel pid := by
  intro fuel
  induction fuel with
  | zero => intro pid; rfl
  | succ fuel ih => intro pid; simp only [walk, stepPid_dropNegativeKeys, ih]

theorem predictLoop_dropNegativeKeys (tree_ : GBTree) (feat : FeatMap) (fuel : Nat) :
    ∀ (todo i : Nat) (out : List Int),
      predictLoop tree_ (dropNegativeKeys feat) fuel todo i out =
        predictLoop tree_ feat fuel todo i out := by
  intro todo
  induction todo with
  | zero => intro i out; rfl
  | succ todo ih => intro i out; simp only [predictLoop, walk_dropNegativeKeys, ih]

/-! ## Reading from a file of known layout -/

theorem fread_of_drop {bytes : List Nat} {fp : FILE} {n : Nat} {x rest : List Nat}
    (buf : List Nat) (h : bytes.drop fp.pos = x ++ rest) (hn : x.length = n) :
    (fread bytes fp buf n).1 = x ∧ (fread bytes fp buf n).2.pos = fp.pos + n := by
  unfold fread
  simp only [h, List.take_left' hn, hn]
  rw [List.drop_eq_nil_of_le (List.length_take_le n buf), List.append_nil]
  constructor <;> trivial

theorem drop_add_of_drop {bytes : List Nat} {pos n : Nat} {x rest : List Nat}
    (h : bytes.drop pos = x ++ rest) (hn : x.length = n) :
    bytes.drop (pos + n) = rest := by
  rw [← List.drop_drop, h, List.drop_left' hn]

theorem le_length_of_drop {bytes : List Nat} {pos : Nat} {x rest : List Nat}
    (h : bytes.drop pos = x ++ rest) (hx : 0 < x.length) : pos + x.length ≤ bytes.length := by
  have hlen : (bytes.drop pos).length = x.length + rest.length := by rw [h, List.length_append]
  rw [List.length_drop] at hlen
  omega

theorem length_le_offsetLimit (lim : Nat) (bytes : List Nat) :
    bytes.length ≤ offsetLimit lim bytes :=
  le_max_left _ _

theorem fseekCur_nonneg {limit pos n : Nat} (h : pos + n ≤ limit) :
    fseekCur limit pos (n : Int) = pos + n := by
  unfold fseekCur
  rw [if_pos (by omega)]
  omega

theorem leBytes_length (w n : Nat) : (leBytes w n).length = w := by
  induction w generalizing n with
  | zero => rfl
  | succ w ih => simp [leBytes, ih]

theorem leNat_leBytes (w n : Nat) : leNat (leBytes w n) = n % 256 ^ w := by
  induction w generalizing n with
  | zero => simp [leBytes, leNat, Nat.mod_one]
  | succ w ih =>
    simp only [leBytes, leNat, ih, Nat.mod_mod]
    rw [pow_succ, Nat.mul_comm (256 ^ w) 256, Nat.mod_mul]

theorem toInt64_of_lt {n : Nat} (h : n < 2 ^ 63) : toInt64 n = (n : Int) := by
  unfold toInt64
  have : n % 2 ^ 64 = n := Nat.mod_eq_of_lt (by omega)
  rw [this, if_pos h]

theorem skipBlock_of_drop {bytes : List Nat} {limit : Nat} {fp : FILE} {payload rest : List Nat}
    (len : List Nat) (h : bytes.drop fp.pos = lengthPrefixed payload ++ rest)
    (hlen : payload.length < 2 ^ 63) (hlim : bytes.length ≤ limit) :
    (skipBlock bytes limit fp len).2.pos = fp.pos + 8 + payload.length ∧
      bytes.drop (fp.pos + 8 + payload.length) = rest := by
  have hin := le_length_of_drop h (by simp [lengthPrefixed, leBytes_length])
  have hl : (lengthPrefixed payload).length = 8 + payload.length := by
    simp [lengthPrefixed, leBytes_length]
  unfold lengthPrefixed at h
  rw [List.append_assoc] at h
  obtain ⟨h1, h1p⟩ := fread_of_drop len h (leBytes_length 8 _)
  have h2 := drop_add_of_drop h (leBytes_length 8 _)
  have h3 := drop_add_of_drop h2 rfl
  refine ⟨?_, h3⟩
  unfold skipBlock fseek
  simp only [h1, h1p, SkipKind.offset]
  rw [leNat_leBytes, Nat.mod_eq_of_lt (by norm_num; omega), toInt64_of_lt hlen,
    fseekCur_nonneg (by omega)]

theorem wrapInt32_of_lt {n : Nat} (h : n < 2 ^ 27) :
    wrapInt32 (sizeof_node_stat * (n : Int)) = ((16 * n : Nat) : Int) := by
  unfold wrapInt32 sizeof_node_stat
  omega

theorem concatRecords_length {recs : List (List Nat)} (h : ∀ r ∈ recs, r.length = sizeof_node) :
    (concatRecords recs).length = sizeof_node * recs.length := by
  induction recs with
  | nil => rfl
  | cons r rs ih =>
    simp only [concatRecords, List.length_append, List.length_cons]
    rw [ih (fun x hx => h x (List.mem_cons_of_mem _ hx)), h r (List.mem_cons_self _ _)]
    ring

theorem readNodes_of_drop {bytes : List Nat} :
    ∀ (recs : List (List Nat)) (fp : FILE) (rest : List Nat),
      bytes.drop fp.pos = concatRecords recs ++ rest → (∀ r ∈ recs, r.length = sizeof_node) →
      (readNodes bytes recs.length fp).1 = recs.map decodeNode ∧
        (readNodes bytes recs.length fp).2.pos = fp.pos + sizeof_node * recs.length := by
  intro recs
  induction recs with
  | nil => intro fp rest _ _; simp [readNodes]
  | cons r rs ih =>
    intro fp rest h hsz
    have hr : r.length = sizeof_node := hsz r (List.mem_cons_self _ _)
    simp only [concatRecords, List.append_assoc] at h
    obtain ⟨h1, h1p⟩ := fread_of_drop (List.replicate sizeof_node 0) h hr
    have h2 := drop_add_of_drop h hr
    rw [← h1p] at h2
    obtain ⟨h3, h3p⟩ := ih _ rest h2 (fun x hx => hsz x (List.mem_cons_of_mem _ hx))
    simp only [List.length_cons, readNodes, h1, h3, h3p, h1p, List.map_cons, true_and]
    ring

/-- The nodes read depend on the stream through its position only. -/
theorem readNodes_congr (bytes : List Nat) :
    ∀ (n : Nat) (fp fp' : FILE), fp.pos = fp'.pos →
      (readNodes bytes n fp).1 = (readNodes bytes n fp').1 ∧
        (readNodes bytes n fp).2.pos = (readNodes bytes n fp').2.pos := by
  intro n
  induction n with
  | zero => intro fp fp' h; exact ⟨rfl, h⟩
  | succ n ih =>
    intro fp fp' h
    have h1 : (fread bytes fp (List.replicate sizeof_node 0) sizeof_node).1 =
        (fread bytes fp' (List.replicate sizeof_node 0) sizeof_node).1 := by
      simp only [fread, h]
    have h2 : (fread bytes fp (List.replicate sizeof_node 0) sizeof_node).2.pos =
        (fread bytes fp' (List.replicate sizeof_node 0) sizeof_node).2.pos := by
      simp only [fread, h]
    obtain ⟨h3, h4⟩ := ih _ _ h2
    simp only [readNodes, h1, h3, h4, and_self]

theorem treeSection_bytes_length {t : TreeSection} (hv : t.Valid) :
    t.bytes.length = sizeof_tree_param + sizeof_node * t.nodes.length + 16 * t.nodes.length
      + t.leafBlock.length := by
  unfold TreeSection.bytes
  simp only [List.length_append, hv.param_size, concatRecords_length hv.node_size, hv.stats_size]

/-- One pass of the loop over the trees, up to the seek over the statistics,
when the parameters and the node records of the section are there: `fp1` is the
stream after the node records. -/
theorem readTree_head {bytes : List Nat} {limit : Nat} {t : TreeSection} {fp : FILE}
    {rest : List Nat} (tree_param len : List Nat)
    (h : bytes.drop fp.pos = t.tree_param ++ concatRecords t.nodes ++ rest) (hv : t.Valid) :
    ∃ fp1 : FILE, fp1.pos = fp.pos + sizeof_tree_param + sizeof_node * t.nodes.length ∧
      readTree bytes limit tree_param len fp =
        if int32At t.tree_param 20 ≠ 0 then
          { nodes := some (t.nodes.map decodeNode)
            len := (skipBlock bytes limit (fseek limit fp1 (.stats t.nodes.length)) len).1
            fp := (skipBlock bytes limit (fseek limit fp1 (.stats t.nodes.length)) len).2 }
        else
          { nodes := some (t.nodes.map decodeNode)
            len := len
            fp := fseek limit fp1 (.stats t.nodes.length) } := by
  rw [List.append_assoc] at h
  obtain ⟨h1, h1p⟩ := fread_of_drop tree_param h hv.param_size
  have h2 := drop_add_of_drop h hv.param_size
  rw [← h1p] at h2
  obtain ⟨h3, h3p⟩ := readNodes_of_drop t.nodes _ _ h2 hv.node_size
  refine ⟨(readNodes bytes t.nodes.length (fread bytes fp tree_param sizeof_tree_param).2).2,
    by rw [h3p, h1p], ?_⟩
  unfold readTree
  simp only [h1, hv.num_nodes, Int.toNat_ofNat, h3]
  have : ¬ ((t.nodes.length : Int) < 0) := by omega
  simp only [this, if_false]

theorem leaf_flag_none {t : TreeSection} (hv : t.Valid) (h : t.leaf_vector = none) :
    int32At t.tree_param 20 = 0 := by
  by_contra hne
  have := hv.leaf_flag.1 hne
  rw [h] at this
  simp at this

theorem leaf_flag_some {t : TreeSection} (hv : t.Valid) {v : List Nat}
    (h : t.leaf_vector = some v) : int32At t.tree_param 20 ≠ 0 :=
  hv.leaf_flag.2 (by rw [h]; rfl)

/-- The nodes of a tree come out of the pass as soon as its parameters and its
node records are there, whatever follows them. -/
theorem readTree_nodes {bytes : List Nat} {limit : Nat} {t : TreeSection} {fp : FILE}
    {rest : List Nat} (tree_param len : List Nat)
    (h : bytes.drop fp.pos = t.tree_param ++ concatRecords t.nodes ++ rest) (hv : t.Valid) :
    (readTree bytes limit tree_param len fp).nodes = some (t.nodes.map decodeNode) := by
  obtain ⟨fp1, _, h1⟩ := @readTree_head bytes limit t fp rest tree_param len h hv
  rw [h1]
  split <;> rfl

/-- One pass of the loop over a complete tree section that is followed by `rest`. -/
theorem readTree_of_drop {bytes : List Nat} {limit : Nat} {t : TreeSection} {fp : FILE}
    {rest : List Nat} (tree_param len : List Nat)
    (h : bytes.drop fp.pos = t.bytes ++ rest) (hv : t.Valid)
    (hn : t.nodes.length < 2 ^ 27)
    (hl : ∀ v, t.leaf_vector = some v → v.length < 2 ^ 63) (hlim : bytes.length ≤ limit) :
    (readTree bytes limit tree_param len fp).nodes = some (t.nodes.map decodeNode) ∧
      (readTree bytes limit tree_param len fp).fp.pos = fp.pos + t.bytes.length ∧
      bytes.drop (fp.pos + t.bytes.length) = rest := by
  have hin : fp.pos + t.bytes.length ≤ bytes.length :=
    le_length_of_drop h (by rw [treeSection_bytes_length hv]; simp [sizeof_tree_param])
  unfold TreeSection.bytes at h
  simp only [List.append_assoc] at h
  obtain ⟨fp1, hp1, hhead⟩ := @readTree_head bytes limit t fp _ tree_param len
    (by rw [List.append_assoc]; exact h) hv
  have h2 := drop_add_of_drop h hv.param_size
  have h3 := drop_add_of_drop h2 (concatRecords_length hv.node_size)
  have h4 := drop_add_of_drop h3 hv.stats_size
  have hlenb := treeSection_bytes_length hv
  simp only [sizeof_tree_param, sizeof_node] at hp1 hlenb h4 ⊢
  have hseek : (fseek limit fp1 (.stats t.nodes.length)).pos =
      fp.pos + 148 + 20 * t.nodes.length + 16 * t.nodes.length := by
    have hle : fp1.pos + 16 * t.nodes.length ≤ limit := by omega
    simp only [fseek, SkipKind.offset]
    rw [wrapInt32_of_lt hn, fseekCur_nonneg hle, hp1]
  rw [hhead, hlenb]
  cases hlv : t.leaf_vector with
  | none =>
    have hb : t.leafBlock = [] := by simp [TreeSection.leafBlock, hlv]
    rw [hb] at h4 ⊢
    simp only [leaf_flag_none hv hlv, ne_eq, not_true_eq_false, if_false, List.length_nil,
      Nat.add_zero, List.nil_append, true_and] at h4 ⊢
    refine ⟨by rw [hseek]; omega, ?_⟩
    rw [← h4]
    exact congrArg (fun k => List.drop k bytes) (by omega)
  | some v =>
    have hb : t.leafBlock = lengthPrefixed v := by simp [TreeSection.leafBlock, hlv]
    rw [hb] at h4 ⊢
    rw [← hseek] at h4
    obtain ⟨hs, hd⟩ := skipBlock_of_drop len h4 (hl v hlv) hlim
    simp only [leaf_flag_some hv hlv, ne_eq, not_false_eq_true, if_true, hs, true_and]
    have hlen : (lengthPrefixed v).length = 8 + v.length := by
      simp [lengthPrefixed, leBytes_length]
    rw [hlen]
    rw [hseek] at hd ⊢
    refine ⟨by omega, ?_⟩
    rw [← hd]
    exact congrArg (fun k => List.drop k bytes) (by omega)

/-- One more pass of the loop over the trees, when the pass reads a tree. -/
theorem readTrees_succ (bytes : List Nat) (limit : Nat) (g : Locals) (todo i : Nat)
    (len : List Nat) (fp : FILE) {nodes : List Node}
    (h : (readTree bytes limit (g.tree_param i) len fp).nodes = some nodes) :
    readTrees bytes limit g (todo + 1) i len fp =
      ((readTrees bytes limit g todo (i + 1)
          (readTree bytes limit (g.tree_param i) len fp).len
          (readTree bytes limit (g.tree_param i) len fp).fp).1.cons nodes,
        (readTrees bytes limit g todo (i + 1)
          (readTree bytes limit (g.tree_param i) len fp).len
          (readTree bytes limit (g.tree_param i) len fp).fp).2) := by
  rw [readTrees]
  simp only [h]

/-- The last pass of the loop over the trees, when the pass reads a tree. -/
theorem readTrees_one (bytes : List Nat) (limit : Nat) (g : Locals) (i : Nat)
    (len : List Nat) (fp : FILE) {nodes : List Node}
    (h : (readTree bytes limit (g.tree_param i) len fp).nodes = some nodes) :
    (readTrees bytes limit g 1 i len fp).1 = .ok [nodes] := by
  rw [readTrees_succ bytes limit g 0 i len fp h]
  rfl

theorem treesBytes_append (ts us : List TreeSection) :
    treesBytes (ts ++ us) = treesBytes ts ++ treesBytes us := by
  induction ts with
  | nil => rfl
  | cons t ts ih => simp [treesBytes, ih]

/-- Reading a run of complete tree sections, then whatever `readTrees` makes of
the bytes after them. -/
theorem readTrees_sections {bytes : List Nat} {limit : Nat} (g : Locals) :
    ∀ (ts : List TreeSection) (fp : FILE) (todo i : Nat) (len rest : List Nat) (more : GBTree),
      bytes.drop fp.pos = treesBytes ts ++ rest →
      (∀ t ∈ ts, t.Valid) → (∀ t ∈ ts, t.nodes.length < 2 ^ 27) →
      (∀ t ∈ ts, ∀ v, t.leaf_vector = some v → v.length < 2 ^ 63) → bytes.length ≤ limit →
      (∀ (fp' : FILE) (i' : Nat) (len' : List Nat), fp'.pos = fp.pos + (treesBytes ts).length →
        (readTrees bytes limit g todo i' len' fp').1 = .ok more) →
      (readTrees bytes limit g (ts.length + todo) i len fp).1 =
        .ok (ts.map (fun t => t.nodes.map decodeNode) ++ more) := by
  intro ts
  induction ts with
  | nil =>
    intro fp todo i len rest more _ _ _ _ _ hmore
    simpa [treesBytes] using hmore fp i len (by simp [treesBytes])
  | cons t ts ih =>
    intro fp todo i len rest more h hv hn hl hlim hmore
    simp only [treesBytes, List.append_assoc] at h
    obtain ⟨h1, h1p, h2⟩ := readTree_of_drop (g.tree_param i) len h
      (hv t (List.mem_cons_self _ _)) (hn t (List.mem_cons_self _ _))
      (hl t (List.mem_cons_self _ _)) hlim
    rw [← h1p] at h2
    have := ih _ todo (i + 1) (readTree bytes limit (g.tree_param i) len fp).len rest more h2
      (fun x hx => hv x (List.mem_cons_of_mem _ hx))
      (fun x hx => hn x (List.mem_cons_of_mem _ hx))
      (fun x hx => hl x (List.mem_cons_of_mem _ hx)) hlim
      (fun fp' i' len' hp => hmore fp' i' len' (by
        rw [hp, h1p]
        simp only [treesBytes, List.length_append]
        omega))
    have e : (t :: ts).length + todo = (ts.length + todo) + 1 := by
      simp only [List.length_cons]; omega
    rw [e, readTrees_succ bytes limit g _ i len fp h1]
    simp only [this]
    rfl

theorem leaf_length_le_treesBytes {ts : List TreeSection} {t : TreeSection} (ht : t ∈ ts)
    {v : List Nat} (hv : t.leaf_vector = some v) : v.length ≤ (treesBytes ts).length := by
  induction ts with
  | nil => cases ht
  | cons u us ih =>
    simp only [treesBytes, List.length_append]
    rcases List.mem_cons.1 ht with rfl | h
    · simp only [TreeSection.bytes, TreeSection.leafBlock, hv, lengthPrefixed,
        List.length_append]
      omega
    · have := ih h
      omega

theorem modelFile_bytes_length (m : ModelFile) :
    m.bytes.length = m.header.length + (8 + m.name_obj.length) + (8 + m.name_gbm.length)
      + m.gbtree_model_param.length + (treesBytes m.trees).length + m.trailing.length := by
  simp only [ModelFile.bytes, ModelFile.preamble, lengthPrefixed, List.length_append,
    leBytes_length]

theorem fseek_header_pos {limit : Nat} (fp : FILE) (h : fp.pos + 136 ≤ limit) :
    (fseek limit fp .header).pos = fp.pos + 136 := by
  have e : SkipKind.offset .header = ((136 : Nat) : Int) := rfl
  simp only [fseek, e]
  exact fseekCur_nonneg h

/-- The part of `load` before the loop over the trees: the loop starts after the
preamble, with some content of `len`. -/
theorem load_preamble {m : ModelFile} (hv : m.Valid) {bytes rest : List Nat} (lim : Nat)
    (g : Locals) (h : bytes = m.preamble ++ rest) :
    ∃ (fp : FILE) (len : List Nat), fp.pos = m.preamble.length ∧
      loadRun lim g bytes = readTrees bytes (offsetLimit lim bytes) g m.trees.length 0 len fp ∧
      bytes.drop m.preamble.length = rest := by
  have hsz := hv.file_size
  rw [modelFile_bytes_length] at hsz
  have hlim := length_le_offsetLimit lim bytes
  have hpre : m.preamble.length =
      136 + 8 + m.name_obj.length + 8 + m.name_gbm.length + 160 := by
    simp only [ModelFile.preamble, lengthPrefixed, List.length_append, leBytes_length,
      hv.header_size, hv.param_size, sizeof_gbtree_model_param]
    omega
  have hlen : m.preamble.length ≤ bytes.length := by
    rw [h, List.length_append]; omega
  obtain ⟨fp0, e0⟩ : ∃ fp0, fseek (offsetLimit lim bytes) fopen .header = fp0 := ⟨_, rfl⟩
  obtain ⟨s1, e1⟩ : ∃ s1, skipBlock bytes (offsetLimit lim bytes) fp0 g.len = s1 := ⟨_, rfl⟩
  obtain ⟨s2, e2⟩ : ∃ s2, skipBlock bytes (offsetLimit lim bytes) s1.2 s1.1 = s2 := ⟨_, rfl⟩
  obtain ⟨p, e3⟩ : ∃ p, fread bytes s2.2 g.gbtree_model_param sizeof_gbtree_model_param = p :=
    ⟨_, rfl⟩
  have p0 : fp0.pos = 136 := by
    rw [← e0, fseek_header_pos fopen (by show 0 + 136 ≤ _; omega)]
    rfl
  have h0 : bytes.drop fp0.pos =
      lengthPrefixed m.name_obj ++ (lengthPrefixed m.name_gbm ++ (m.gbtree_model_param ++ rest)) := by
    rw [p0, h]
    simp only [ModelFile.preamble, List.append_assoc]
    exact List.drop_left' hv.header_size
  obtain ⟨p1, d1⟩ := skipBlock_of_drop g.len h0 (by omega) hlim
  rw [e1] at p1
  rw [← p1] at d1
  obtain ⟨p2, d2⟩ := skipBlock_of_drop s1.1 d1 (by omega) hlim
  rw [e2] at p2
  rw [← p2] at d2
  obtain ⟨r3, r3p⟩ := fread_of_drop g.gbtree_model_param d2 hv.param_size
  have d3 := drop_add_of_drop d2 hv.param_size
  rw [e3] at r3 r3p
  rw [p2, p1, p0] at r3p d3
  simp only [sizeof_gbtree_model_param] at r3p d3
  refine ⟨p.2, s2.1, by rw [r3p, hpre], ?_, by rw [hpre]; exact d3⟩
  unfold loadRun
  simp only [e0, e1, e2, e3, r3, hv.num_trees, Int.toNat_ofNat]
  have : ¬ ((m.trees.length : Int) < 0) := by omega
  simp only [this, if_false]

theorem TreeSection.bytes_eq_readPart (t : TreeSection) :
    ∃ tail, t.bytes = t.readPart ++ tail := by
  unfold TreeSection.bytes TreeSection.readPart TreeSection.leafBlock
  cases t.leaf_vector with
  | none => exact ⟨t.stats, by simp⟩
  | some v => exact ⟨v, by simp [lengthPrefixed]⟩

theorem ModelFile.bytes_eq_readPrefix (m : ModelFile) :
    ∃ tail, m.bytes = m.readPrefix ++ tail := by
  unfold ModelFile.bytes ModelFile.readPrefix
  rcases List.eq_nil_or_concat m.trees with h | ⟨L, b, h⟩
  · rw [h]
    exact ⟨m.trailing, by simp [treesBytes]⟩
  · rw [h]
    obtain ⟨tail, ht⟩ := b.bytes_eq_readPart
    refine ⟨tail ++ m.trailing, ?_⟩
    simp [treesBytes_append, treesBytes, ht]

theorem leaf_length_lt {m : ModelFile} (hv : m.Valid) :
    ∀ t ∈ m.trees, ∀ v, t.leaf_vector = some v → v.length < 2 ^ 63 := by
  have hsz := hv.file_size
  rw [modelFile_bytes_length] at hsz
  intro t ht v hv'
  have := leaf_length_le_treesBytes ht hv'
  omega

/-- When a file starts with the preamble, the complete sections of the trees
`init` and the parameters of one more tree `last`, `load` returns the trees of
`init` and, for `last`, the nodes that `readNodes` makes of what follows. -/
theorem load_sections_then_param (m : ModelFile) (hv : m.Valid) (init : List TreeSection)
    (last : TreeSection) (hm : m.trees = init ++ [last])
    (hn : ∀ t ∈ init, t.nodes.length < 2 ^ 27) (rest : List Nat) (lim : Nat) (g : Locals) :
    load lim g (m.preamble ++ treesBytes init ++ last.tree_param ++ rest) =
      .ok (init.map (fun t => t.nodes.map decodeNode) ++
        [(readNodes (m.preamble ++ treesBytes init ++ last.tree_param ++ rest) last.nodes.length
          { pos := (m.preamble ++ treesBytes init ++ last.tree_param).length, moves := [] }).1]) := by
  have hmem : ∀ t ∈ init, t ∈ m.trees := fun t ht => by rw [hm]; simp [ht]
  have hbm : last ∈ m.trees := by rw [hm]; simp
  have hvl := hv.trees_valid last hbm
  generalize hb : m.preamble ++ treesBytes init ++ last.tree_param ++ rest = bytes
  have hb' : bytes = m.preamble ++ (treesBytes init ++ (last.tree_param ++ rest)) := by
    rw [← hb]; simp only [List.append_assoc]
  obtain ⟨fp, len, hp, hrun, hdrop⟩ := load_preamble hv lim g hb'
  rw [← hp] at hdrop
  have hlast : ∀ (fp' : FILE) (i' : Nat) (len' : List Nat),
      fp'.pos = fp.pos + (treesBytes init).length →
      (readTrees bytes (offsetLimit lim bytes) g 1 i' len' fp').1 =
        .ok [(readNodes bytes last.nodes.length
          { pos := (m.preamble ++ treesBytes init ++ last.tree_param).length, moves := [] }).1] := by
    intro fp' i' len' hp'
    have hd := drop_add_of_drop hdrop rfl
    rw [← hp'] at hd
    obtain ⟨r1, r1p⟩ := fread_of_drop (g.tree_param i') hd hvl.param_size
    apply readTrees_one
    unfold readTree
    simp only [r1, hvl.num_nodes, Int.toNat_ofNat]
    have : ¬ ((last.nodes.length : Int) < 0) := by omega
    simp only [this, if_false]
    have hc := (readNodes_congr bytes last.nodes.length
      (fread bytes fp' (g.tree_param i') sizeof_tree_param).2
      { pos := (m.preamble ++ treesBytes init ++ last.tree_param).length, moves := [] }
      (by rw [r1p, hp', hp]; simp only [List.length_append, hvl.param_size])).1
    split <;> simp only [hc]
  have := readTrees_sections g init fp 1 0 len _ _ hdrop
    (fun t ht => hv.trees_valid t (hmem t ht)) hn
    (fun t ht => leaf_length_lt hv t (hmem t ht)) (length_le_offsetLimit lim bytes) hlast
  unfold load
  rw [hrun, hm, List.length_append, List.length_singleton, this]

/-- Whatever follows the last byte that `load` reads, `load` returns the
ensemble that the file describes. -/
theorem load_readPrefix_append (m : ModelFile) (hv : m.Valid)
    (hn : ∀ t ∈ m.trees, t.nodes.length < 2 ^ 27) (rest : List Nat) (lim : Nat) (g : Locals) :
    load lim g (m.readPrefix ++ rest) = .ok m.ensemble := by
  rcases List.eq_nil_or_concat m.trees with h | ⟨L, b, h⟩
  · have hb : m.readPrefix ++ rest = m.preamble ++ rest := by
      simp [ModelFile.readPrefix, h, treesBytes]
    obtain ⟨fp, len, _, h1, _⟩ := load_preamble hv lim g hb
    unfold load
    rw [h1, h]
    simp [ModelFile.ensemble, h, readTrees]
  · rw [List.concat_eq_append] at h
    have hmem : ∀ t ∈ L, t ∈ m.trees := fun t ht => by rw [h]; simp [ht]
    have hbm : b ∈ m.trees := by rw [h]; simp
    have hvb := hv.trees_valid b hbm
    obtain ⟨tail, htail⟩ : ∃ tail, b.readPart = b.tree_param ++ (concatRecords b.nodes ++ tail) :=
      ⟨_, by unfold TreeSection.readPart; rw [List.append_assoc]⟩
    have hb : m.readPrefix ++ rest =
        m.preamble ++ treesBytes L ++ b.tree_param ++ (concatRecords b.nodes ++ (tail ++ rest)) := by
      simp [ModelFile.readPrefix, h, htail]
    rw [hb, load_sections_then_param m hv L b h (fun t ht => hn t (hmem t ht))]
    have hd : (m.preamble ++ treesBytes L ++ b.tree_param ++
        (concatRecords b.nodes ++ (tail ++ rest))).drop
        (FILE.mk (m.preamble ++ treesBytes L ++ b.tree_param).length []).pos =
          concatRecords b.nodes ++ (tail ++ rest) := List.drop_left' rfl
    rw [(readNodes_of_drop b.nodes _ _ hd hvb.node_size).1]
    simp [ModelFile.ensemble, h]

/-- For a file of the documented layout whose trees have fewer than `2^27` nodes
each, `load` returns the ensemble that the file describes. -/
theorem load_bytes (m : ModelFile) (hv : m.Valid)
    (hn : ∀ t ∈ m.trees, t.nodes.length < 2 ^ 27) (lim : Nat) (g : Locals) :
    load lim g m.bytes = .ok m.ensemble := by
  obtain ⟨tail, ht⟩ := m.bytes_eq_readPrefix
  rw [ht]
  exact load_readPrefix_append m hv hn tail lim g


/-! ## Writing and reading back -/

theorem fieldAt_zero {a rest : List Nat} {w : Nat} (h : a.length = w) :
    fieldAt (a ++ rest) 0 w = leNat a := by
  unfold fieldAt
  rw [List.drop_zero, List.take_left' h]

theorem fieldAt_skip {a rest : List Nat} (n off : Nat) {w : Nat} (h : a.length = n) :
    fieldAt (a ++ rest) (n + off) w = fieldAt rest off w := by
  unfold fieldAt
  rw [← h, List.drop_append]

theorem int32At_skip {a rest : List Nat} (n off : Nat) (h : a.length = n) :
    int32At (a ++ rest) (n + off) = int32At rest off := by
  unfold int32At
  rw [fieldAt_skip n off h]

theorem encodeInt32_length (x : Int) : (encodeInt32 x).length = 4 := leBytes_length 4 _

theorem int32At_encodeInt32 {x : Int} (h1 : -2 ^ 31 ≤ x) (h2 : x < 2 ^ 31) (rest : List Nat) :
    int32At (encodeInt32 x ++ rest) 0 = x := by
  unfold int32At
  rw [fieldAt_zero (encodeInt32_length x)]
  unfold encodeInt32
  rw [leNat_leBytes]
  unfold unsignedToInt
  have hnn : 0 ≤ x % 2 ^ 32 := Int.emod_nonneg _ (by norm_num)
  have hlt : x % 2 ^ 32 < 2 ^ 32 := Int.emod_lt_of_pos _ (by norm_num)
  have e1 : (x % 2 ^ 32).toNat % 256 ^ 4 % 2 ^ 32 = (x % 2 ^ 32).toNat := by omega
  have e0 : (x % 2 ^ 32).toNat % 256 ^ 4 = (x % 2 ^ 32).toNat := by omega
  rw [e0, Nat.mod_eq_of_lt (by omega)]
  split <;> omega

theorem fieldAt_leBytes4 {n : Nat} (h : n < 2 ^ 32) (rest : List Nat) :
    fieldAt (leBytes 4 n ++ rest) 0 4 = n := by
  rw [fieldAt_zero (leBytes_length 4 n), leNat_leBytes]
  omega

theorem encodeNode_length (nd : Node) : (encodeNode nd).length = sizeof_node := by
  simp [encodeNode, encodeInt32_length, leBytes_length, sizeof_node]

theorem decodeNode_encodeNode {nd : Node} (h : nd.Fits) : decodeNode (encodeNode nd) = nd := by
  obtain ⟨⟨p1, p2⟩, ⟨l1, l2⟩, ⟨r1, r2⟩, hs, hi⟩ := h
  have e : encodeNode nd = encodeInt32 nd.parent_ ++ (encodeInt32 nd.cleft_ ++
      (encodeInt32 nd.cright_ ++ (leBytes 4 nd.sindex_ ++ (leBytes 4 nd.info_ ++ [])))) := by
    simp [encodeNode]
  have a0 : int32At (encodeNode nd) 0 = nd.parent_ := by
    rw [e]; exact int32At_encodeInt32 p1 p2 _
  have a4 : int32At (encodeNode nd) 4 = nd.cleft_ := by
    rw [e, int32At_skip 4 0 (encodeInt32_length _)]; exact int32At_encodeInt32 l1 l2 _
  have a8 : int32At (encodeNode nd) 8 = nd.cright_ := by
    rw [e, int32At_skip 4 4 (encodeInt32_length _),
      int32At_skip 4 0 (encodeInt32_length _)]
    exact int32At_encodeInt32 r1 r2 _
  have a12 : fieldAt (encodeNode nd) 12 4 = nd.sindex_ := by
    rw [e, fieldAt_skip 4 8 (encodeInt32_length _),
      fieldAt_skip 4 4 (encodeInt32_length _),
      fieldAt_skip 4 0 (encodeInt32_length _)]
    exact fieldAt_leBytes4 hs _
  have a16 : fieldAt (encodeNode nd) 16 4 = nd.info_ := by
    rw [e, fieldAt_skip 4 12 (encodeInt32_length _),
      fieldAt_skip 4 8 (encodeInt32_length _),
      fieldAt_skip 4 4 (encodeInt32_length _),
      fieldAt_skip 4 0 (leBytes_length _ _)]
    exact fieldAt_leBytes4 hi _
  unfold decodeNode
  rw [a0, a4, a8, a12, a16]

theorem writeTree_valid (tree : List Node) (leaf_vector : Option (List Nat))
    (hn : tree.length < 2 ^ 31) : (writeTree tree leaf_vector).Valid := by
  have hflag : ∀ b : Bool, int32At (leBytes 4 0 ++ encodeInt32 (tree.length : Int) ++ leBytes 12 0
      ++ encodeInt32 (if b = true then 1 else 0) ++ leBytes 124 0) 20
        = (if b = true then 1 else 0) := by
    intro b
    simp only [List.append_assoc]
    rw [int32At_skip 4 16 (leBytes_length _ _), int32At_skip 4 12 (encodeInt32_length _),
      int32At_skip 12 0 (leBytes_length _ _)]
    apply int32At_encodeInt32 <;> split <;> norm_num
  refine ⟨?_, ?_, ?_, ?_, ?_⟩
  · simp [writeTree, leBytes_length, encodeInt32_length, sizeof_tree_param]
  · simp only [writeTree, List.append_assoc, List.length_map]
    rw [int32At_skip 4 0 (leBytes_length _ _)]
    apply int32At_encodeInt32 <;> omega
  · intro r hr
    simp only [writeTree, List.mem_map] at hr
    obtain ⟨nd, _, rfl⟩ := hr
    exact encodeNode_length nd
  · simp [writeTree]
  · simp only [writeTree]
    rw [hflag]
    cases leaf_vector <;> simp

theorem writeModel_valid (header name_obj name_gbm : List Nat)
    (trees : List (List Node × Option (List Nat))) (hh : header.length = 136)
    (hcount : trees.length < 2 ^ 31) (hnodes : ∀ t ∈ trees, t.1.length < 2 ^ 31)
    (hsize : (writeModel header name_obj name_gbm trees).bytes.length < 2 ^ 63) :
    (writeModel header name_obj name_gbm trees).Valid := by
  refine ⟨hh, ?_, ?_, ?_, hsize⟩
  · simp [writeModel, encodeInt32_length, leBytes_length, sizeof_gbtree_model_param]
  · simp only [writeModel, List.length_map]
    apply int32At_encodeInt32 <;> omega
  · intro t ht
    simp only [writeModel, List.mem_map] at ht
    obtain ⟨p, hp, rfl⟩ := ht
    exact writeTree_valid p.1 p.2 (hnodes p hp)

theorem ensemble_writeModel (header name_obj name_gbm : List Nat)
    (trees : List (List Node × Option (List Nat)))
    (hfits : ∀ t ∈ trees, ∀ nd ∈ t.1, nd.Fits) :
    (writeModel header name_obj name_gbm trees).ensemble = trees.map (fun t => t.1) := by
  simp only [ModelFile.ensemble, writeModel, List.map_map]
  apply List.map_congr_left
  intro t ht
  simp only [Function.comp, writeTree, List.map_map]
  conv_rhs => rw [← List.map_id t.1]
  apply List.map_congr_left
  intro nd hnd
  simpa using decodeNode_encodeNode (hfits t ht nd hnd)

/-- Writing an ensemble whose trees have fewer than `2^27` nodes and reading it
back gives the ensemble. -/
theorem load_writeModel (header name_obj name_gbm : List Nat)
    (trees : List (List Node × Option (List Nat))) (hh : header.length = 136)
    (hcount : trees.length < 2 ^ 31) (hnodes : ∀ t ∈ trees, t.1.length < 2 ^ 27)
    (hfits : ∀ t ∈ trees, ∀ nd ∈ t.1, nd.Fits)
    (hsize : (writeModel header name_obj name_gbm trees).bytes.length < 2 ^ 63)
    (lim : Nat) (g : Locals) :
    load lim g (writeModel header name_obj name_gbm trees).bytes =
      .ok (trees.map (fun t => t.1)) := by
  have hv := writeModel_valid header name_obj name_gbm trees hh hcount
    (fun t ht => by have := hnodes t ht; omega) hsize
  rw [load_bytes _ hv _ lim g, ensemble_writeModel _ _ _ _ hfits]
  intro t ht
  simp only [writeModel, List.mem_map] at ht
  obtain ⟨p, hp, rfl⟩ := ht
  simpa [writeTree] using hnodes p hp

/-! ## The node-statistics skip on a tree of `2^27` nodes -/

theorem concatRecords_replicate_zero (n k : Nat) :
    concatRecords (List.replicate n (List.replicate k 0)) = List.replicate (k * n) 0 := by
  induction n with
  | zero => simp [concatRecords]
  | succ n ih =>
    rw [List.replicate_succ, concatRecords, ih, ← List.replicate_add]
    congr 1
    ring

theorem encodeNode_zeroNode : encodeNode zeroNode = List.replicate 20 0 := by decide

theorem decodeNode_zero : decodeNode (List.replicate 20 0) = zeroNode := by decide

set_option maxRecDepth 4000 in
theorem zeroSection_valid : zeroSection.Valid := by
  refine ⟨by decide, by decide, ?_, by decide, ?_⟩
  · intro r hr; cases hr
  · constructor
    · intro h; exact absurd (by decide) h
    · intro h; cases h

theorem overflowFile_bytes (n : Nat) :
    (overflowFile n).bytes = (overflowFile n).preamble ++
      ((writeTree (List.replicate n zeroNode) none).tree_param ++
        (List.replicate (20 * n) 0 ++
          (List.replicate (16 * n) 0 ++ ((writeTree leafTree none).bytes)))) := by
  have hnodes : concatRecords (writeTree (List.replicate n zeroNode) none).nodes
      = List.replicate (20 * n) 0 := by
    simp only [writeTree, List.map_replicate, encodeNode_zeroNode, concatRecords_replicate_zero]
  have hstats : (writeTree (List.replicate n zeroNode) none).stats = List.replicate (16 * n) 0 := by
    simp only [writeTree, List.length_replicate]
  simp only [ModelFile.bytes, overflowFile, writeModel, List.map, treesBytes]
  rw [TreeSection.bytes, hnodes, hstats]
  simp only [TreeSection.leafBlock, writeTree, List.append_nil, List.append_assoc]

theorem overflowFile_preamble_length (n : Nat) : (overflowFile n).preamble.length = 312 := by
  simp [ModelFile.preamble, overflowFile, writeModel, lengthPrefixed, leBytes_length,
    encodeInt32_length]

theorem writeTree_bytes_length (tree : List Node) (hn : tree.length < 2 ^ 31) :
    (writeTree tree none).bytes.length = 148 + 36 * tree.length := by
  rw [treeSection_bytes_length (writeTree_valid tree none hn)]
  simp [writeTree, TreeSection.leafBlock, sizeof_tree_param, sizeof_node]
  omega

theorem overflowFile_valid (n : Nat) (hn : n = 2 ^ 27) : (overflowFile n).Valid := by
  apply writeModel_valid
  · simp
  · simp
  · intro t ht
    simp only [List.mem_cons, List.mem_singleton, List.not_mem_nil, or_false] at ht
    rcases ht with rfl | rfl
    · simp; omega
    · simp [leafTree]
  · show (overflowFile n).bytes.length < 2 ^ 63
    rw [overflowFile_bytes]
    simp only [List.length_append, overflowFile_preamble_length, List.length_replicate,
      (writeTree_valid (List.replicate n zeroNode) none (by simp; omega)).param_size,
      writeTree_bytes_length leafTree (by simp [leafTree]), sizeof_tree_param]
    simp only [leafTree, List.length_singleton]
    omega

theorem fseekCur_eq {limit pos : Nat} {off : Int} {q : Nat} (h : (pos : Int) + off = q)
    (hq : q ≤ limit) : fseekCur limit pos off = q := by
  unfold fseekCur
  rw [if_pos (by omega)]
  omega

/-- With `2^27` nodes in the first tree the 32-bit product `16 * num_nodes` is
`-2^31`: the seek goes back into the node records, the next tree parameters are
read from zero bytes, and the second tree comes out with no node. -/
theorem load_overflowFile_of_eq (n : Nat) (hn : n = 2 ^ 27) (lim : Nat) (g : Locals) :
    load lim g (overflowFile n).bytes = .ok [List.replicate n zeroNode, []] := by
  have hv := overflowFile_valid n hn
  have hv0 : (writeTree (List.replicate n zeroNode) none).Valid :=
    writeTree_valid _ _ (by simp; omega)
  have hlen0 : (writeTree (List.replicate n zeroNode) none).nodes.length = n := by
    simp [writeTree]
  have hnodes : concatRecords (writeTree (List.replicate n zeroNode) none).nodes
      = List.replicate (20 * n) 0 := by
    simp only [writeTree, List.map_replicate, encodeNode_zeroNode, concatRecords_replicate_zero]
  have hdec : (writeTree (List.replicate n zeroNode) none).nodes.map decodeNode
      = List.replicate n zeroNode := by
    simp only [writeTree, List.map_replicate, encodeNode_zeroNode, decodeNode_zero]
  obtain ⟨fp, len, hp, hrun, hdrop⟩ := load_preamble hv lim g (overflowFile_bytes n)
  rw [overflowFile_preamble_length] at hp hdrop
  rw [← hp] at hdrop
  obtain ⟨fp1, hp1, hhead⟩ := @readTree_head _ (offsetLimit lim (overflowFile n).bytes) _ fp _
    (g.tree_param 0) len (by rw [hnodes, List.append_assoc]; exact hdrop) hv0
  have hflag := leaf_flag_none hv0 rfl
  simp only [hflag, ne_eq, not_true_eq_false, if_false, hlen0, hdec] at hhead
  simp only [hlen0, hp, sizeof_tree_param, sizeof_node] at hp1
  have hd2 := drop_add_of_drop hdrop hv0.param_size
  have hlen := le_length_of_drop hd2 (by simp; omega)
  rw [List.length_replicate] at hlen
  simp only [hp, sizeof_tree_param] at hd2 hlen
  have hlim := length_le_offsetLimit lim (overflowFile n).bytes
  have hw : wrapInt32 (sizeof_node_stat * (n : Int)) = -2 ^ 31 := by
    unfold wrapInt32 sizeof_node_stat
    omega
  have hseek : (fseek (offsetLimit lim (overflowFile n).bytes) fp1 (.stats (n : Int))).pos
      = 460 + 2 ^ 29 := by
    simp only [fseek, SkipKind.offset]
    exact fseekCur_eq (by rw [hw, hp1]; omega) (by omega)
  have hd3 : ((overflowFile n).bytes).drop
      (fseek (offsetLimit lim (overflowFile n).bytes) fp1 (.stats (n : Int))).pos =
      zeroSection.tree_param ++ concatRecords zeroSection.nodes ++
        (List.replicate (20 * n - 2 ^ 29 - 148) 0 ++
          (List.replicate (16 * n) 0 ++ (writeTree leafTree none).bytes)) := by
    have hrp : zeroSection.tree_param ++ concatRecords zeroSection.nodes
        = List.replicate 148 0 := by
      simp only [zeroSection, concatRecords, List.append_nil]
    have hsplit : List.replicate (20 * n - 2 ^ 29) 0 =
        List.replicate 148 0 ++ List.replicate (20 * n - 2 ^ 29 - 148) 0 := by
      have e : 148 + (20 * n - 2 ^ 29 - 148) = 20 * n - 2 ^ 29 := by omega
      rw [← List.replicate_add, e]
    have e : 460 + 2 ^ 29 = 312 + 148 + 2 ^ 29 := by norm_num
    rw [hseek, e, ← List.drop_drop, hd2, List.drop_append_of_le_length (by simp; omega),
      List.drop_replicate, hsplit, hrp, List.append_assoc]
  have hlast := @readTree_nodes _ (offsetLimit lim (overflowFile n).bytes) _ _ _
    (g.tree_param 1) len hd3 zeroSection_valid
  have hcount : (overflowFile n).trees.length = 0 + 1 + 1 := rfl
  unfold load
  rw [hrun, hcount, readTrees_succ _ _ g _ 0 len fp (by rw [hhead])]
  simp only [hhead]
  rw [readTrees_one _ _ g 1 len _ hlast]
  rfl

theorem zeroNode_fits : zeroNode.Fits := by
  unfold Node.Fits zeroNode; norm_num

theorem leafNode_fits : leafNode.Fits := by
  unfold Node.Fits leafNode; norm_num

theorem overflowFile_ensemble (n : Nat) :
    (overflowFile n).ensemble = [List.replicate n zeroNode, leafTree] := by
  unfold overflowFile
  rw [ensemble_writeModel]
  · rfl
  · intro t ht nd hnd
    simp only [List.mem_cons, List.mem_singleton, List.not_mem_nil, or_false] at ht
    rcases ht with rfl | rfl
    · rw [List.eq_of_mem_replicate hnd]; exact zeroNode_fits
    · simp only [leafTree, List.mem_singleton] at hnd
      rw [hnd]; exact leafNode_fits

theorem overflowFile_facts (n : Nat) (hn : n = 2 ^ 27) :
    (overflowFile n).Valid ∧
    (overflowFile n).ensemble = [List.replicate n zeroNode, leafTree] ∧
    ∀ (lim : Nat) (g : Locals),
      load lim g (overflowFile n).bytes = .ok [List.replicate n zeroNode, []] :=
  ⟨overflowFile_valid n hn, overflowFile_ensemble n, load_overflowFile_of_eq n hn⟩

theorem overflow_round_trip (n : Nat) (hn : n = 2 ^ 27) :
    ∃ e, (∀ (lim : Nat) (g : Locals), load lim g (writeModel (List.replicate 136 0) [] []
        [(List.replicate n zeroNode, none), (leafTree, none)]).bytes = .ok e) ∧
      e.map List.length = [n, 0] ∧
      [List.replicate n zeroNode, leafTree].map List.length = [n, 1] :=
  ⟨_, load_overflowFile_of_eq n hn, by simp, by simp [leafTree]⟩

set_option maxRecDepth 100000 in
theorem loopFile_load (lim : Nat) (g : Locals) : load lim g loopFile.bytes = .ok [[zeroNode]] :=
  load_writeModel (List.replicate 136 0) [] [] [([zeroNode], none)]
    (by decide) (by decide) (by decide) (by
      intro t ht nd hnd
      simp only [List.mem_singleton] at ht
      subst ht
      simp only [List.mem_singleton] at hnd
      subst hnd
      exact zeroNode_fits) (by decide) lim g

/-! ## The read position during `load` -/

theorem endPos_append (A B : List Move) : ∀ pos, endPos pos (A ++ B) = endPos (endPos pos A) B := by
  induction A with
  | nil => intro pos; rfl
  | cons m ms ih => intro pos; exact ih m.after

theorem contiguous_append {A B : List Move} :
    ∀ {pos : Nat}, Contiguous pos A → Contiguous (endPos pos A) B → Contiguous pos (A ++ B) := by
  induction A with
  | nil => intro pos _ hB; exact hB
  | cons m ms ih =>
    intro pos hA hB
    cases hA with
    | cons _ _ h => exact Contiguous.cons m _ (ih h hB)

theorem fread_moves_le (bytes : List Nat) (fp : FILE) (buf : List Nat) (n : Nat) :
    fp.moves <+: (fread bytes fp buf n).2.moves :=
  ⟨_, rfl⟩

theorem fseek_moves_le (limit : Nat) (fp : FILE) (kind : SkipKind) :
    fp.moves <+: (fseek limit fp kind).moves :=
  ⟨_, rfl⟩

theorem skipBlock_moves_le (bytes : List Nat) (limit : Nat) (fp : FILE) (len : List Nat) :
    fp.moves <+: (skipBlock bytes limit fp len).2.moves :=
  (fread_moves_le bytes fp len 8).trans (fseek_moves_le limit _ _)

theorem readNodes_moves_le (bytes : List Nat) :
    ∀ (n : Nat) (fp : FILE), fp.moves <+: (readNodes bytes n fp).2.moves := by
  intro n
  induction n with
  | zero => intro fp; exact List.prefix_refl _
  | succ n ih =>
    intro fp
    exact (fread_moves_le bytes fp _ _).trans (ih _)

theorem readTree_moves_le (bytes : List Nat) (limit : Nat) (tree_param len : List Nat)
    (fp : FILE) : fp.moves <+: (readTree bytes limit tree_param len fp).fp.moves := by
  have h1 := fread_moves_le bytes fp tree_param sizeof_tree_param
  unfold readTree
  simp only
  split
  · exact h1
  · have h2 := h1.trans (readNodes_moves_le bytes
      (int32At (fread bytes fp tree_param sizeof_tree_param).1 4).toNat
      (fread bytes fp tree_param sizeof_tree_param).2)
    have h3 := h2.trans (fseek_moves_le limit _
      (.stats (int32At (fread bytes fp tree_param sizeof_tree_param).1 4)))
    split
    · exact h3.trans (skipBlock_moves_le bytes limit _ len)
    · exact h3

theorem readTrees_moves_le (bytes : List Nat) (limit : Nat) (g : Locals) :
    ∀ (todo i : Nat) (len : List Nat) (fp : FILE),
      fp.moves <+: (readTrees bytes limit g todo i len fp).2.moves := by
  intro todo
  induction todo with
  | zero => intro i len fp; exact List.prefix_refl _
  | succ todo ih =>
    intro i len fp
    have h1 := readTree_moves_le bytes limit (g.tree_param i) len fp
    rw [readTrees]
    cases h : (readTree bytes limit (g.tree_param i) len fp).nodes with
    | none => simpa only [h] using h1
    | some nodes =>
      simp only [h]
      exact h1.trans (ih _ _ _)

/-- The movements of the header skip and of the first name are the first
movements of `load`. -/
theorem loadRun_moves_le (lim : Nat) (g : Locals) (bytes : List Nat) :
    (skipBlock bytes (offsetLimit lim bytes) (fseek (offsetLimit lim bytes) fopen .header)
      g.len).2.moves <+: (loadRun lim g bytes).2.moves := by
  unfold loadRun
  simp only
  have h1 := (skipBlock_moves_le bytes (offsetLimit lim bytes)
    (skipBlock bytes (offsetLimit lim bytes) (fseek (offsetLimit lim bytes) fopen .header)
      g.len).2
    (skipBlock bytes (offsetLimit lim bytes) (fseek (offsetLimit lim bytes) fopen .header)
      g.len).1).trans (fread_moves_le bytes _ g.gbtree_model_param sizeof_gbtree_model_param)
  split
  · exact h1
  · exact h1.trans (readTrees_moves_le bytes _ g _ _ _ _)

theorem logged_snoc {limit : Nat} {fp : FILE} (h : fp.Logged limit) (m : Move)
    (hb : m.before = fp.pos) (hs : m.Sound limit) :
    FILE.Logged limit { pos := m.after, moves := fp.moves ++ [m] } := by
  obtain ⟨h1, h2, h3⟩ := h
  refine ⟨contiguous_append h1 ?_, ?_, ?_⟩
  · rw [h2, ← hb]
    exact Contiguous.cons m [] (Contiguous.nil _)
  · show endPos 0 (fp.moves ++ [m]) = m.after
    rw [endPos_append]
    rfl
  · intro x hx
    rcases List.mem_append.1 hx with hx | hx
    · exact h3 x hx
    · rw [List.mem_singleton.1 hx]
      exact hs

theorem fopen_logged (limit : Nat) : fopen.Logged limit :=
  ⟨Contiguous.nil 0, rfl, fun _ hm => by cases hm⟩

theorem fread_logged {limit : Nat} {fp : FILE} (h : fp.Logged limit) (bytes buf : List Nat)
    (n : Nat) : (fread bytes fp buf n).2.Logged limit :=
  logged_snoc h (.read fp.pos n ((bytes.drop fp.pos).take n).length) rfl
    (List.length_take_le _ _)

theorem fseek_logged {limit : Nat} {fp : FILE} (h : fp.Logged limit) (kind : SkipKind)
    (hk : ∀ n, kind = .stats n → 0 ≤ n) : (fseek limit fp kind).Logged limit := by
  refine logged_snoc h (.skip fp.pos kind (fseekCur limit fp.pos kind.offset)) rfl ⟨rfl, ?_⟩
  cases kind with
  | header => exact True.intro
  | block len => exact True.intro
  | stats n => exact hk n rfl

theorem skipBlock_logged {limit : Nat} {fp : FILE} (h : fp.Logged limit) (bytes len : List Nat) :
    (skipBlock bytes limit fp len).2.Logged limit :=
  fseek_logged (fread_logged h bytes len 8) _ (fun _ hn => by cases hn)

theorem readNodes_logged {limit : Nat} (bytes : List Nat) :
    ∀ (n : Nat) (fp : FILE), fp.Logged limit → (readNodes bytes n fp).2.Logged limit := by
  intro n
  induction n with
  | zero => intro fp h; exact h
  | succ n ih =>
    intro fp h
    exact ih _ (fread_logged h bytes _ _)

theorem readTree_logged {limit : Nat} {fp : FILE} (h : fp.Logged limit)
    (bytes tree_param len : List Nat) :
    (readTree bytes limit tree_param len fp).fp.Logged limit := by
  have h1 := fread_logged h bytes tree_param sizeof_tree_param
  unfold readTree
  simp only
  split
  · exact h1
  · rename_i hneg
    have h3 : (fseek limit (readNodes bytes
        (int32At (fread bytes fp tree_param sizeof_tree_param).1 4).toNat
        (fread bytes fp tree_param sizeof_tree_param).2).2
        (.stats (int32At (fread bytes fp tree_param sizeof_tree_param).1 4))).Logged limit :=
      fseek_logged (readNodes_logged bytes _ _ h1) _ (fun n hn => by
        cases hn
        omega)
    split
    · exact skipBlock_logged h3 bytes len
    · exact h3

theorem readTrees_logged {limit : Nat} (bytes : List Nat) (g : Locals) :
    ∀ (todo i : Nat) (len : List Nat) (fp : FILE), fp.Logged limit →
      (readTrees bytes limit g todo i len fp).2.Logged limit := by
  intro todo
  induction todo with
  | zero => intro i len fp h; exact h
  | succ todo ih =>
    intro i len fp h
    have h1 := readTree_logged h bytes (g.tree_param i) len
    rw [readTrees]
    cases hn : (readTree bytes limit (g.tree_param i) len fp).nodes with
    | none => simpa only [hn] using h1
    | some nodes =>
      simp only [hn]
      exact ih _ _ _ h1

/-- The log of `load` is in step with the stream at the end of `load`. -/
theorem loadRun_logged (lim : Nat) (g : Locals) (bytes : List Nat) :
    (loadRun lim g bytes).2.Logged (offsetLimit lim bytes) := by
  have h0 := fseek_logged (fopen_logged (offsetLimit lim bytes)) .header
    (fun _ hn => by cases hn)
  have h1 := skipBlock_logged h0 bytes g.len
  have h2 := skipBlock_logged h1 bytes
    (skipBlock bytes (offsetLimit lim bytes) (fseek (offsetLimit lim bytes) fopen .header)
      g.len).1
  have h3 := fread_logged h2 bytes g.gbtree_model_param sizeof_gbtree_model_param
  unfold loadRun
  simp only
  split
  · exact h3
  · exact readTrees_logged bytes g _ _ _ _ h3


/-- The movements of `load` follow one another from position 0, and each is what
the source does. -/
theorem loadTrace_spec (lim : Nat) (g : Locals) (bytes : List Nat) :
    Contiguous 0 (loadTrace lim g bytes) ∧
      ∀ m ∈ loadTrace lim g bytes, m.Sound (offsetLimit lim bytes) :=
  have h := loadRun_logged lim g bytes
  ⟨h.1, h.2.2⟩

/-- A skip of a value in range does not move the position back: it advances by
exactly its amount when the target is at most `limit`, and stays otherwise. -/
theorem exact_of_sound {limit : Nat} {m : Move} (hs : m.Sound limit) (hr : m.InRange) :
    m.before ≤ m.after ∧ (m.Within limit → m.Exact) ∧ (¬ m.Within limit → m.after = m.before) := by
  cases m with
  | read pos n got => exact ⟨Nat.le_add_right _ _, fun _ => True.intro, fun h => absurd True.intro h⟩
  | skip pos kind pos' =>
    obtain ⟨h1, h2⟩ := hs
    have key : kind.offset = kind.amount ∧ 0 ≤ kind.amount := by
      cases kind with
      | header => exact ⟨rfl, by decide⟩
      | block len =>
        have hlen : len < 2 ^ 63 := hr
        exact ⟨toInt64_of_lt hlen, by simp only [SkipKind.amount]; omega⟩
      | stats n =>
        have hn : n < 2 ^ 27 := hr
        have h0 : 0 ≤ n := h2
        simp only [SkipKind.offset, SkipKind.amount, wrapInt32, sizeof_node_stat]
        constructor <;> omega
    obtain ⟨k1, k2⟩ := key
    rw [k1] at h1
    simp only [Move.before, Move.after, Move.Within, Move.Exact]
    unfold fseekCur at h1
    refine ⟨?_, ?_, ?_⟩
    · split at h1 <;> omega
    · intro hw
      rw [if_pos ⟨by omega, hw⟩] at h1
      omega
    · intro hw
      rw [if_neg (fun h => hw h.2)] at h1
      exact h1

theorem chain_of_contiguous :
    ∀ (T : List Move) (pos : Nat), Contiguous pos T → (∀ m ∈ T, m.before ≤ m.after) →
      List.Chain (· ≤ ·) pos (T.map Move.after) := by
  intro T
  induction T with
  | nil => intro pos _ _; exact List.Chain.nil
  | cons m ms ih =>
    intro pos hc hf
    have h1 := hf m (List.mem_cons_self _ _)
    cases hc with
    | cons _ _ h =>
      exact List.Chain.cons h1 (ih m.after h (fun x hx => hf x (List.mem_cons_of_mem _ hx)))

theorem within_mono {m : Move} {a b : Nat} (hab : a ≤ b) (h : m.Within a) : m.Within b := by
  cases m with
  | read pos n got => exact True.intro
  | skip pos kind pos' =>
    simp only [Move.Within] at h ⊢
    omega

/-- The statistics skip of a tree section whose parameters and node records are
at the position of `fp` is among the movements of `readTrees`. -/
theorem stats_skip_mem_readTrees {bytes : List Nat} {limit : Nat} {t : TreeSection} {fp : FILE}
    (g : Locals) (todo i : Nat) (len : List Nat) {rest : List Nat}
    (h : bytes.drop fp.pos = t.tree_param ++ concatRecords t.nodes ++ rest) (hv : t.Valid) :
    Move.skip (fp.pos + sizeof_tree_param + sizeof_node * t.nodes.length)
        (.stats (t.nodes.length : Int))
        (fseekCur limit (fp.pos + sizeof_tree_param + sizeof_node * t.nodes.length)
          (wrapInt32 (sizeof_node_stat * (t.nodes.length : Int))))
      ∈ (readTrees bytes limit g (todo + 1) i len fp).2.moves := by
  obtain ⟨fp1, hp1, hhead⟩ := @readTree_head bytes limit t fp rest (g.tree_param i) len h hv
  have hmem : Move.skip (fp.pos + sizeof_tree_param + sizeof_node * t.nodes.length)
      (.stats (t.nodes.length : Int))
      (fseekCur limit (fp.pos + sizeof_tree_param + sizeof_node * t.nodes.length)
        (wrapInt32 (sizeof_node_stat * (t.nodes.length : Int))))
      ∈ (fseek limit fp1 (.stats (t.nodes.length : Int))).moves := by
    rw [← hp1]
    simp only [fseek, SkipKind.offset, List.mem_append, List.mem_singleton, or_true]
  have hsub : (fseek limit fp1 (.stats (t.nodes.length : Int))).moves <+:
      (readTree bytes limit (g.tree_param i) len fp).fp.moves := by
    rw [hhead]
    split
    · exact skipBlock_moves_le bytes limit _ len
    · exact List.prefix_refl _
  have hn := @readTree_nodes bytes limit t fp rest (g.tree_param i) len h hv
  rw [readTrees_succ bytes limit g todo i len fp hn]
  exact (hsub.trans (readTrees_moves_le bytes limit g _ _ _ _)).subset hmem

theorem overflowFile_stats_skip (n : Nat) (hn : n = 2 ^ 27) (lim : Nat) (g : Locals) :
    Move.skip (460 + 20 * n) (.stats (n : Int)) (460 + 2 ^ 29)
      ∈ loadTrace lim g (overflowFile n).bytes := by
  have hv := overflowFile_valid n hn
  have hv0 : (writeTree (List.replicate n zeroNode) none).Valid :=
    writeTree_valid _ _ (by simp; omega)
  have hlen0 : (writeTree (List.replicate n zeroNode) none).nodes.length = n := by
    simp [writeTree]
  have hnodes : concatRecords (writeTree (List.replicate n zeroNode) none).nodes
      = List.replicate (20 * n) 0 := by
    simp only [writeTree, List.map_replicate, encodeNode_zeroNode, concatRecords_replicate_zero]
  obtain ⟨fp, len, hp, hrun, hdrop⟩ := load_preamble hv lim g (overflowFile_bytes n)
  rw [overflowFile_preamble_length] at hp hdrop
  rw [← hp] at hdrop
  have hmem := @stats_skip_mem_readTrees _ (offsetLimit lim (overflowFile n).bytes) _ fp g 1 0
    len _ (by rw [hnodes, List.append_assoc]; exact hdrop) hv0
  have hd2 := drop_add_of_drop hdrop hv0.param_size
  have hlen := le_length_of_drop hd2 (by simp; omega)
  rw [List.length_replicate] at hlen
  have hlim := length_le_offsetLimit lim (overflowFile n).bytes
  have hw : wrapInt32 (sizeof_node_stat * (n : Int)) = -2 ^ 31 := by
    unfold wrapInt32 sizeof_node_stat
    omega
  simp only [hlen0, hp, sizeof_tree_param, sizeof_node] at hmem hlen
  have hseek : fseekCur (offsetLimit lim (overflowFile n).bytes) (312 + 148 + 20 * n)
      (wrapInt32 (sizeof_node_stat * (n : Int))) = 460 + 2 ^ 29 :=
    fseekCur_eq (by rw [hw]; omega) (by omega)
  rw [hseek] at hmem
  unfold loadTrace
  rw [hrun]
  exact hmem

/-- On `backSeekFile` the first three movements of `load` are the header skip,
the read of the length `2^64 - 1` and a skip from 144 back to 143. -/
theorem backSeekFile_moves (lim : Nat) (g : Locals) :
    (loadTrace lim g backSeekFile).take 3 =
      [.skip 0 .header 136, .read 136 8 8, .skip 144 (.block (2 ^ 64 - 1)) 143] := by
  have hlim := length_le_offsetLimit lim backSeekFile
  have hl : backSeekFile.length = 144 := by simp [backSeekFile]
  rw [hl] at hlim
  have e0 : fseek (offsetLimit lim backSeekFile) fopen .header =
      { pos := 136, moves := [.skip 0 .header 136] } := by
    have : fseekCur (offsetLimit lim backSeekFile) 0 (SkipKind.offset .header) = 136 :=
      fseekCur_eq (by decide) (by omega)
    simp only [fseek, fopen, this, List.nil_append]
  have hd : backSeekFile.drop (FILE.mk 136 [.skip 0 .header 136]).pos =
      List.replicate 8 255 ++ [] := by
    show List.drop 136 (List.replicate 136 0 ++ List.replicate 8 255) = _
    rw [List.drop_left' (List.length_replicate _ _), List.append_nil]
  have r1 : (fread backSeekFile (FILE.mk 136 [.skip 0 .header 136]) g.len 8).1 =
      List.replicate 8 255 := (fread_of_drop g.len hd rfl).1
  have r1p : (fread backSeekFile (FILE.mk 136 [.skip 0 .header 136]) g.len 8).2.pos =
      136 + 8 := (fread_of_drop g.len hd rfl).2
  have r1m : (fread backSeekFile (FILE.mk 136 [.skip 0 .header 136]) g.len 8).2.moves =
      [.skip 0 .header 136, .read 136 8 8] := by
    simp only [fread, hd, List.append_nil, List.take_replicate, List.length_replicate]
    rfl
  have e1 : (skipBlock backSeekFile (offsetLimit lim backSeekFile)
      (fseek (offsetLimit lim backSeekFile) fopen .header) g.len).2.moves =
      [.skip 0 .header 136, .read 136 8 8, .skip 144 (.block (2 ^ 64 - 1)) 143] := by
    have hle : leNat (List.replicate 8 255) = 2 ^ 64 - 1 := by decide
    have hs : fseekCur (offsetLimit lim backSeekFile) (136 + 8)
        (SkipKind.offset (.block (2 ^ 64 - 1))) = 143 :=
      fseekCur_eq (by decide) (by omega)
    rw [e0]
    simp only [skipBlock, fseek, r1, r1p, r1m, hle, hs]
    simp only [List.cons_append, List.nil_append]
  obtain ⟨t, ht⟩ := loadRun_moves_le lim g backSeekFile
  unfold loadTrace
  rw [← ht, e1]
  exact List.take_left' rfl

/-! ## The node-statistics skip on a tree of `2^28` nodes -/

theorem statsTree_valid (n : Nat) (hn : n < 2 ^ 31) (stats : List Nat)
    (hlen : stats.length = 16 * n) : (statsTree n stats).Valid := by
  have hv := writeTree_valid (List.replicate n zeroNode) none (by simpa using hn)
  refine ⟨hv.param_size, hv.num_nodes, hv.node_size, ?_, hv.leaf_flag⟩
  show stats.length = 16 * (writeTree (List.replicate n zeroNode) none).nodes.length
  rw [hlen]
  simp [writeTree]

theorem statsFile_bytes (n : Nat) (stats : List Nat) :
    (statsFile n stats).bytes = (statsFile n stats).preamble ++
      ((statsTree n stats).tree_param ++
        (List.replicate (20 * n) 0 ++ (stats ++ ((writeTree leafTree none).bytes)))) := by
  have hnodes : concatRecords (statsTree n stats).nodes = List.replicate (20 * n) 0 := by
    simp only [statsTree, writeTree, List.map_replicate, encodeNode_zeroNode,
      concatRecords_replicate_zero]
  have htr : (statsFile n stats).trees = [statsTree n stats, writeTree leafTree none] := rfl
  have htl : (statsFile n stats).trailing = [] := rfl
  have hlb : (statsTree n stats).leafBlock = [] := rfl
  have hst : (statsTree n stats).stats = stats := rfl
  rw [ModelFile.bytes, htr, htl]
  simp only [treesBytes]
  rw [TreeSection.bytes, hnodes, hlb, hst]
  simp only [List.append_nil, List.append_assoc]

theorem statsFile_preamble_length (n : Nat) (stats : List Nat) :
    (statsFile n stats).preamble.length = 312 :=
  overflowFile_preamble_length n

theorem statsFile_valid (n : Nat) (hn : n = 2 ^ 28) (stats : List Nat)
    (hlen : stats.length = 16 * n) : (statsFile n stats).Valid := by
  have hv0 := statsTree_valid n (by omega) stats hlen
  have hv1 := writeTree_valid leafTree none (by simp [leafTree])
  refine ⟨?_, ?_, ?_, ?_, ?_⟩
  · show (List.replicate 136 0).length = 136
    simp
  · show (encodeInt32 ((2 : Nat) : Int) ++ leBytes 156 0).length = sizeof_gbtree_model_param
    simp [encodeInt32_length, leBytes_length, sizeof_gbtree_model_param]
  · show int32At (encodeInt32 ((2 : Nat) : Int) ++ leBytes 156 0) 0 = ((2 : Nat) : Int)
    apply int32At_encodeInt32 <;> norm_num
  · intro t ht
    have htr : (statsFile n stats).trees = [statsTree n stats, writeTree leafTree none] := rfl
    rw [htr] at ht
    simp only [List.mem_cons, List.mem_singleton, List.not_mem_nil, or_false] at ht
    rcases ht with rfl | rfl
    · exact hv0
    · exact hv1
  · rw [statsFile_bytes]
    simp only [List.length_append, statsFile_preamble_length, List.length_replicate,
      hv0.param_size, hlen, writeTree_bytes_length leafTree (by simp [leafTree]),
      sizeof_tree_param]
    simp only [leafTree, List.length_singleton]
    omega

/-- With `2^28` nodes in the first tree the 32-bit product `16 * num_nodes` is 0:
the position stays at the start of the node statistics, and the parameters and
nodes of the next tree are read from the statistics. -/
theorem load_statsFile_of_eq (n : Nat) (hn : n = 2 ^ 28) (stats : List Nat)
    (hlen : stats.length = 16 * n) (t : TreeSection) (hvt : t.Valid)
    (junk : List Nat) (hs : stats = t.readPart ++ junk) (lim : Nat) (g : Locals) :
    load lim g (statsFile n stats).bytes =
      .ok [List.replicate n zeroNode, t.nodes.map decodeNode] := by
  have hv := statsFile_valid n hn stats hlen
  have hv0 := statsTree_valid n (by omega) stats hlen
  have hlen0 : (statsTree n stats).nodes.length = n := by
    simp [statsTree, writeTree]
  have hnodes : concatRecords (statsTree n stats).nodes = List.replicate (20 * n) 0 := by
    simp only [statsTree, writeTree, List.map_replicate, encodeNode_zeroNode,
      concatRecords_replicate_zero]
  have hdec : (statsTree n stats).nodes.map decodeNode = List.replicate n zeroNode := by
    simp only [statsTree, writeTree, List.map_replicate, encodeNode_zeroNode, decodeNode_zero]
  obtain ⟨fp, len, hp, hrun, hdrop⟩ := load_preamble hv lim g (statsFile_bytes n stats)
  rw [statsFile_preamble_length] at hp hdrop
  rw [← hp] at hdrop
  obtain ⟨fp1, hp1, hhead⟩ := @readTree_head _ (offsetLimit lim (statsFile n stats).bytes) _ fp _
    (g.tree_param 0) len (by rw [hnodes, List.append_assoc]; exact hdrop) hv0
  have hflag := leaf_flag_none hv0 rfl
  simp only [hflag, ne_eq, not_true_eq_false, if_false, hlen0, hdec] at hhead
  simp only [hlen0, hp, sizeof_tree_param, sizeof_node] at hp1
  have hd2 := drop_add_of_drop hdrop hv0.param_size
  have hlenb := le_length_of_drop hd2 (by simp; omega)
  rw [List.length_replicate] at hlenb
  simp only [hp, sizeof_tree_param] at hd2 hlenb
  have hlim := length_le_offsetLimit lim (statsFile n stats).bytes
  have hw : wrapInt32 (sizeof_node_stat * (n : Int)) = 0 := by
    unfold wrapInt32 sizeof_node_stat
    omega
  have hseek : (fseek (offsetLimit lim (statsFile n stats).bytes) fp1 (.stats (n : Int))).pos
      = 312 + 148 + 20 * n := by
    simp only [fseek, SkipKind.offset]
    exact fseekCur_eq (by rw [hw, hp1]; omega) (by omega)
  obtain ⟨tail, htail⟩ : ∃ tail, t.readPart = t.tree_param ++ concatRecords t.nodes ++ tail :=
    ⟨_, rfl⟩
  have hd3 : ((statsFile n stats).bytes).drop
      (fseek (offsetLimit lim (statsFile n stats).bytes) fp1 (.stats (n : Int))).pos =
      t.tree_param ++ concatRecords t.nodes ++
        (tail ++ (junk ++ (writeTree leafTree none).bytes)) := by
    have := drop_add_of_drop hd2 (List.length_replicate (20 * n) 0)
    rw [hseek, this, hs, htail]
    simp only [List.append_assoc]
  have hlast := @readTree_nodes _ (offsetLimit lim (statsFile n stats).bytes) _ _ _
    (g.tree_param 1) len hd3 hvt
  have hcount : (statsFile n stats).trees.length = 0 + 1 + 1 := rfl
  unfold load
  rw [hrun, hcount, readTrees_succ _ _ g _ 0 len fp (by rw [hhead])]
  simp only [hhead]
  rw [readTrees_one _ _ g 1 len _ hlast]
  rfl

set_option maxRecDepth 4000 in
theorem oneNodeSection_valid : oneNodeSection.Valid := by
  refine ⟨by decide, by decide, ?_, by decide, ?_⟩
  · intro r hr
    simp only [oneNodeSection, List.mem_singleton] at hr
    subst hr
    decide
  · constructor
    · intro h; exact absurd (by decide) h
    · intro h; cases h

set_option maxRecDepth 4000 in
theorem oneNodeSection_readPart_length : oneNodeSection.readPart.length = 168 := by decide

theorem markedStats_length (n : Nat) (hn : 11 ≤ n) : (markedStats n).length = 16 * n := by
  unfold markedStats
  rw [List.length_append, oneNodeSection_readPart_length, List.length_replicate]
  omega

theorem zeroStats_eq (n : Nat) (hn : 10 ≤ n) :
    List.replicate (16 * n) 0 = zeroSection.readPart ++ List.replicate (16 * n - 148) 0 := by
  have hrp : zeroSection.readPart = List.replicate 148 0 := by
    simp only [TreeSection.readPart, zeroSection, concatRecords, List.append_nil]
  have e : 148 + (16 * n - 148) = 16 * n := by omega
  rw [hrp, ← List.replicate_add, e]

theorem statsFile_facts (n : Nat) (hn : n = 2 ^ 28) :
    (statsFile n (List.replicate (16 * n) 0)).Valid ∧
    (statsFile n (markedStats n)).Valid ∧
    (statsFile n (List.replicate (16 * n) 0)).preamble = (statsFile n (markedStats n)).preamble ∧
    (statsFile n (List.replicate (16 * n) 0)).trees.map
        (fun t => (t.tree_param, t.nodes, t.leaf_vector)) =
      (statsFile n (markedStats n)).trees.map (fun t => (t.tree_param, t.nodes, t.leaf_vector)) ∧
    (statsFile n (List.replicate (16 * n) 0)).trailing = (statsFile n (markedStats n)).trailing ∧
    (∀ (lim : Nat) (g : Locals), load lim g (statsFile n (List.replicate (16 * n) 0)).bytes =
      .ok [List.replicate n zeroNode, []]) ∧
    (∀ (lim : Nat) (g : Locals), load lim g (statsFile n (markedStats n)).bytes =
      .ok [List.replicate n zeroNode, [zeroNode]]) := by
  have hm := markedStats_length n (by omega)
  refine ⟨statsFile_valid n hn _ (List.length_replicate _ _), statsFile_valid n hn _ hm,
    rfl, rfl, rfl, ?_, ?_⟩
  · exact load_statsFile_of_eq n hn _ (List.length_replicate _ _) zeroSection zeroSection_valid
      _ (zeroStats_eq n (by omega))
  · exact load_statsFile_of_eq n hn _ hm oneNodeSection oneNodeSection_valid _ rfl

/-- For files of the documented layout whose trees have fewer than `2^27` nodes,
the ensemble that `load` returns is a function of the node records alone. -/
theorem load_eq_of_same_nodes (m₁ m₂ : ModelFile) (h₁ : m₁.Valid) (h₂ : m₂.Valid)
    (hn : ∀ t ∈ m₁.trees, t.nodes.length < 2 ^ 27)
    (hsame : m₁.trees.map (fun t => t.nodes) = m₂.trees.map (fun t => t.nodes))
    (lim₁ lim₂ : Nat) (g₁ g₂ : Locals) :
    load lim₁ g₁ m₁.bytes = load lim₂ g₂ m₂.bytes := by
  have hn₂ : ∀ t ∈ m₂.trees, t.nodes.length < 2 ^ 27 := by
    intro t ht
    have hmem : t.nodes ∈ m₂.trees.map (fun t => t.nodes) := List.mem_map.2 ⟨t, ht, rfl⟩
    rw [← hsame] at hmem
    obtain ⟨u, hu, hnu⟩ := List.mem_map.1 hmem
    rw [← hnu]
    exact hn u hu
  have he : m₁.ensemble = m₂.ensemble := by
    have := congrArg (List.map (List.map decodeNode)) hsame
    simpa [ModelFile.ensemble, List.map_map, Function.comp] using this
  rw [load_bytes m₁ h₁ hn, load_bytes m₂ h₂ hn₂, he]

/-! # Claims about `predict` and `Node` -/

/-- C1 (as amended): for every ensemble whose trees are all well-formed (the empty
ensemble included), every feature mapping and every prior content of the output
vector, `predict` returns, the output has exactly one entry per tree, and entry
`i` is the leaf position at which the walk of tree `i` ends. -/
theorem predict_length_and_order (tree_ : GBTree) (feat : FeatMap) (out_preds : List Int)
    (fuel : Nat) (hwf : ∀ tree ∈ tree_, WellFormed tree)
    (hfuel : ∀ tree ∈ tree_, tree.length ≤ fuel) :
    ∃ res, predict tree_ feat out_preds fuel = .ok res ∧ res.length = tree_.length ∧
      ∀ i, i < tree_.length → ∃ q, res[i]? = some q ∧ walk tree_ feat i fuel 0 = .leaf q := by
  apply predict_ok_of_walks
  intro j hj
  have ht : tree_[j]? = some tree_[j] := List.getElem?_eq_getElem hj
  have hmem : tree_[j] ∈ tree_ := List.getElem_mem _
  obtain ⟨q, _, hq, _⟩ := walk_leaf_of_wellFormed tree_ j ht (hwf _ hmem) feat (hfuel _ hmem)
  exact ⟨q, hq⟩

theorem wellFormed_examples : ∀ tree ∈ [splitTree, leafTree], WellFormed tree := by
  intro tree h
  simp only [List.mem_cons, List.mem_singleton, List.not_mem_nil, or_false] at h
  rcases h with rfl | rfl <;> exact wellFormed_of_childrenAfter (by decide)

/-- Instance of C1 at the ensemble `[splitTree, leafTree]`, the mapping `{3: 1.0}`
and the prior output `[7, 7, 7]`. -/
theorem predict_length_and_order_witness :
    (∀ tree ∈ [splitTree, leafTree], WellFormed tree) ∧
    (∀ tree ∈ [splitTree, leafTree], tree.length ≤ 3) ∧
    ∃ res, predict [splitTree, leafTree] (featOfList [(3, 0x3F800000)]) [7, 7, 7] 3 = .ok res ∧
      res.length = [splitTree, leafTree].length ∧
      ∀ i, i < [splitTree, leafTree].length →
        ∃ q, res[i]? = some q ∧
          walk [splitTree, leafTree] (featOfList [(3, 0x3F800000)]) i 3 0 = .leaf q :=
  ⟨wellFormed_examples, by decide,
    predict_length_and_order [splitTree, leafTree] (featOfList [(3, 0x3F800000)]) [7, 7, 7] 3
      wellFormed_examples (by decide)⟩

/-- C1 as stated fails: `load` of the 496-byte file `loopFile` gives the one-tree
ensemble whose only node is the all-zero record (a non-leaf whose children are
both position 0); on it the loop of `predict` never reaches a leaf, so `predict`
returns no output, whatever the step budget. -/
theorem predict_selfLoop_never_returns :
    (∀ (lim : Nat) (g : Locals), load lim g loopFile.bytes = .ok [[zeroNode]]) ∧
    ¬ ∃ (fuel : Nat) (res : List Int),
      predict [[zeroNode]] (fun _ => none) [] fuel = .ok res := by
  refine ⟨loopFile_load, ?_⟩
  rintro ⟨fuel, res, h⟩
  simp [predict, predictLoop, walk_selfLoop] at h

/-- C2: for a well-formed tree and any feature mapping, the loop of `predict`
only evaluates positions inside the tree, and the value recorded for the tree is
a position `q` with `0 ≤ q < num_nodes` whose node is a leaf. -/
theorem predict_records_leaf_position (tree : List Node) (feat : FeatMap) (fuel : Nat)
    (wf : WellFormed tree) (hfuel : tree.length ≤ fuel) :
    ∃ q nd, walk [tree] feat 0 fuel 0 = .leaf q ∧
      (∀ out_preds, predict [tree] feat out_preds fuel = .ok [q]) ∧
      (0 ≤ q ∧ q < tree.length) ∧ treeAt tree q = some nd ∧ nd.is_leaf = true ∧
      ∀ v ∈ visited [tree] feat 0 fuel 0, 0 ≤ v ∧ v < tree.length := by
  obtain ⟨q, nd, hw, hnd, hl, hv⟩ :=
    walk_leaf_of_wellFormed [tree] 0 (by simp) wf feat hfuel
  exact ⟨q, nd, hw, predict_single hw, (treeAt_some hnd).1, hnd, hl, hv⟩

/-- Instance of C2 at `splitTree` and the mapping `{3: 2.0}`. -/
theorem predict_records_leaf_position_witness :
    WellFormed splitTree ∧ splitTree.length ≤ 3 ∧
    ∃ q nd, walk [splitTree] (featOfList [(3, 0x40000000)]) 0 3 0 = .leaf q ∧
      (∀ out_preds, predict [splitTree] (featOfList [(3, 0x40000000)]) out_preds 3 = .ok [q]) ∧
      (0 ≤ q ∧ q < splitTree.length) ∧ treeAt splitTree q = some nd ∧ nd.is_leaf = true ∧
      ∀ v ∈ visited [splitTree] (featOfList [(3, 0x40000000)]) 0 3 0,
        0 ≤ v ∧ v < splitTree.length :=
  ⟨wellFormed_of_childrenAfter (by decide), by decide,
    predict_records_leaf_position splitTree (featOfList [(3, 0x40000000)]) 3
      (wellFormed_of_childrenAfter (by decide)) (by decide)⟩

/-- C3: at a non-leaf node whose split feature is present with value `v`, one
step of the loop moves to `cleft` when `v < split_cond` and to `cright`
otherwise; when `v` equals the threshold (same pattern, or equal as floats) it
moves to `cright`. -/
theorem step_present_feature (tree_ : GBTree) (feat : FeatMap) (i : Nat) (pid : Int)
    (nd : Node) (v : bst_float) (fuel : Nat)
    (hn : nodeAt tree_ i pid = some nd) (hl : nd.is_leaf = false)
    (hv : feat (nd.split_index : Int) = some v) :
    (f32lt v nd.split_cond = true →
      stepPid tree_ feat i pid = some nd.cleft ∧
      walk tree_ feat i (fuel + 1) pid = walk tree_ feat i fuel nd.cleft) ∧
    (f32lt v nd.split_cond = false →
      stepPid tree_ feat i pid = some nd.cright ∧
      walk tree_ feat i (fuel + 1) pid = walk tree_ feat i fuel nd.cright) ∧
    ((v = nd.split_cond ∨ f32eq v nd.split_cond = true) →
      stepPid tree_ feat i pid = some nd.cright ∧
      walk tree_ feat i (fuel + 1) pid = walk tree_ feat i fuel nd.cright) := by
  have hs := stepPid_of_node feat hn
  have hw := walk_step feat hn hl fuel
  rw [hv] at hs hw
  simp only at hs hw
  have hright : f32lt v nd.split_cond = false →
      stepPid tree_ feat i pid = some nd.cright ∧
      walk tree_ feat i (fuel + 1) pid = walk tree_ feat i fuel nd.cright := by
    intro h
    rw [hs, hw]
    simp [h]
  refine ⟨?_, hright, ?_⟩
  · intro h
    rw [hs, hw]
    simp [h]
  · intro h
    apply hright
    rcases h with rfl | h
    · exact f32lt_irrefl _
    · exact f32lt_of_f32eq h

/-- Instance of C3 at the root of `splitTree` with feature 3 present and equal to
the threshold `1.5`: the step moves to the right child, position 2. -/
theorem step_present_feature_witness :
    nodeAt [splitTree] 0 0 = some splitRoot ∧ splitRoot.is_leaf = false ∧
    featOfList [(3, 0x3FC00000)] (splitRoot.split_index : Int) = some 0x3FC00000 ∧
    stepPid [splitTree] (featOfList [(3, 0x3FC00000)]) 0 0 = some 2 :=
  ⟨rfl, rfl, rfl,
    ((step_present_feature [splitTree] (featOfList [(3, 0x3FC00000)]) 0 0 splitRoot
      0x3FC00000 0 rfl rfl rfl).2.2 (Or.inl rfl)).1⟩

/-- C4: at a non-leaf node whose split feature is absent from the mapping, one
step of the loop moves to `cdefault()`, which is `cleft` when `default_left()`
holds and `cright` when it does not, for any threshold the node carries. -/
theorem step_missing_feature (tree_ : GBTree) (feat : FeatMap) (i : Nat) (pid : Int)
    (nd : Node) (fuel : Nat)
    (hn : nodeAt tree_ i pid = some nd) (hl : nd.is_leaf = false)
    (hv : feat (nd.split_index : Int) = none) :
    stepPid tree_ feat i pid = some nd.cdefault ∧
    walk tree_ feat i (fuel + 1) pid = walk tree_ feat i fuel nd.cdefault ∧
    (nd.default_left = true → nd.cdefault = nd.cleft) ∧
    (nd.default_left = false → nd.cdefault = nd.cright) := by
  have hs := stepPid_of_node feat hn
  have hw := walk_step feat hn hl fuel
  rw [hv] at hs hw
  refine ⟨hs, hw, ?_, ?_⟩ <;> intro h <;> simp [Node.cdefault, h]

/-- Instance of C4 at the root of `splitTree` (default direction right) with the
empty mapping. -/
theorem step_missing_feature_witness :
    nodeAt [splitTree] 0 0 = some splitRoot ∧ splitRoot.is_leaf = false ∧
    featOfList [] (splitRoot.split_index : Int) = none ∧
    stepPid [splitTree] (featOfList []) 0 0 = some splitRoot.cdefault ∧
    splitRoot.cdefault = 2 :=
  ⟨rfl, rfl, rfl,
    (step_missing_feature [splitTree] (featOfList []) 0 0 splitRoot 0 rfl rfl rfl).1, rfl⟩

/-- C5: for a well-formed tree with `num_nodes` nodes and any feature mapping
(the empty mapping included), the loop of `predict` reaches a leaf within
`num_nodes` executions of its body, and so with any larger budget. -/
theorem walk_terminates_within_num_nodes (tree_ : GBTree) (i : Nat) (tree : List Node)
    (feat : FeatMap) (ht : tree_[i]? = some tree) (wf : WellFormed tree) :
    (∃ q, walk tree_ feat i tree.length 0 = .leaf q ∧
      ∀ fuel, tree.length ≤ fuel → walk tree_ feat i fuel 0 = .leaf q) ∧
    (∃ q, walk tree_ (fun _ => none) i tree.length 0 = .leaf q) := by
  constructor
  · obtain ⟨q, _, hw, _⟩ := walk_leaf_of_wellFormed tree_ i ht wf feat (le_refl _)
    exact ⟨q, hw, fun fuel hle => walk_fuel_mono hw hle⟩
  · obtain ⟨q, _, hw, _⟩ := walk_leaf_of_wellFormed tree_ i ht wf (fun _ => none) (le_refl _)
    exact ⟨q, hw⟩

/-- Instance of C5 at `splitTree`, second tree of a two-tree ensemble. -/
theorem walk_terminates_within_num_nodes_witness :
    [leafTree, splitTree][1]? = some splitTree ∧ WellFormed splitTree ∧
    ((∃ q, walk [leafTree, splitTree] (featOfList [(3, 0x3F800000)]) 1 splitTree.length 0
        = .leaf q ∧
      ∀ fuel, splitTree.length ≤ fuel →
        walk [leafTree, splitTree] (featOfList [(3, 0x3F800000)]) 1 fuel 0 = .leaf q) ∧
    (∃ q, walk [leafTree, splitTree] (fun _ => none) 1 splitTree.length 0 = .leaf q)) :=
  ⟨rfl, wellFormed_of_childrenAfter (by decide),
    walk_terminates_within_num_nodes [leafTree, splitTree] 1 splitTree
      (featOfList [(3, 0x3F800000)]) rfl (wellFormed_of_childrenAfter (by decide))⟩

/-- C9: a node whose packed field `sindex_` holds the feature index `k < 2^31`
in its low 31 bits and the flag `d` in bit 31 decodes to `split_index() = k` and
`default_left() = d`. -/
theorem packing_round_trip (nd : Node) (k : Nat) (d : Bool) (hk : k < 2 ^ 31)
    (hs : nd.sindex_ = k + (if d then 2 ^ 31 else 0)) :
    nd.split_index = k ∧ nd.default_left = d := by
  constructor
  · rw [split_index_eq_mod, hs]
    cases d <;> simp <;> omega
  · have h := default_left_iff nd
    rw [hs] at h
    cases d
    · simp only [Bool.false_eq_true, if_false, Nat.add_zero] at h
      have : ¬ nd.default_left = true := fun hd => by have := h.1 hd; omega
      simpa using this
    · simp only [if_true] at h
      exact h.2 (by omega)

/-- Instance of C9 at the largest feature index `2^31 - 1` with the flag set. -/
theorem packing_round_trip_witness :
    2147483647 < 2 ^ 31 ∧
    (⟨0, 1, 2, 4294967295, 0⟩ : Node).sindex_ = 2147483647 + (if true then 2 ^ 31 else 0) ∧
    (⟨0, 1, 2, 4294967295, 0⟩ : Node).split_index = 2147483647 ∧
    (⟨0, 1, 2, 4294967295, 0⟩ : Node).default_left = true :=
  ⟨by norm_num, by norm_num,
    packing_round_trip ⟨0, 1, 2, 4294967295, 0⟩ 2147483647 true (by norm_num) (by norm_num)⟩

/-- C10: two ensembles that differ only in the payload of leaf nodes and in the
`parent_` field of nodes give the same result of `predict`, for every feature
mapping, prior output and step budget: the output is the reached position, never
the leaf's value. -/
theorem predict_ignores_leaf_payload_and_parent (g h : GBTree) (feat : FeatMap)
    (out_preds : List Int) (fuel : Nat) (hs : SameEnsemble g h) :
    predict g feat out_preds fuel = predict h feat out_preds fuel := by
  unfold predict
  rw [predictLoop_same hs, List.Forall₂.length_eq hs]

theorem sameEnsemble_example :
    SameEnsemble [splitTree, leafTree]
      [[⟨5, 1, 2, 3, 0x3FC00000⟩, ⟨0, -1, 0, 0, 0x40490FDB⟩, ⟨0, -1, 0, 0, 0x7FC00000⟩],
       [⟨9, -1, 0, 0, 0xBF800000⟩]] := by
  unfold SameEnsemble splitTree leafTree
  repeat constructor
  all_goals decide

/-- Instance of C10: `[splitTree, leafTree]` against a copy with other leaf
payloads and parent fields, under the mapping `{3: 1.0}`. -/
theorem predict_ignores_leaf_payload_and_parent_witness :
    SameEnsemble [splitTree, leafTree]
        [[⟨5, 1, 2, 3, 0x3FC00000⟩, ⟨0, -1, 0, 0, 0x40490FDB⟩, ⟨0, -1, 0, 0, 0x7FC00000⟩],
         [⟨9, -1, 0, 0, 0xBF800000⟩]] ∧
      predict [splitTree, leafTree] (featOfList [(3, 0x3F800000)]) [] 3 =
        predict
          [[⟨5, 1, 2, 3, 0x3FC00000⟩, ⟨0, -1, 0, 0, 0x40490FDB⟩, ⟨0, -1, 0, 0, 0x7FC00000⟩],
           [⟨9, -1, 0, 0, 0xBF800000⟩]] (featOfList [(3, 0x3F800000)]) [] 3 :=
  ⟨sameEnsemble_example,
    predict_ignores_leaf_payload_and_parent _ _ (featOfList [(3, 0x3F800000)]) [] 3
      sameEnsemble_example⟩

/-! # Claims about `load` -/

/-- C6, at the failing input: the file `overflowFile (2^27)` has the documented
layout with non-negative counts (`Valid`) and describes two trees, of `2^27`
nodes and of one node; `load` returns two trees of which the second has no
node, on every file system and whatever its local variables held.  The 32-bit
product `sizeof_node_stat * num_nodes` is `-2^31` for the first tree, so the seek
goes backwards instead of over the statistics. -/
theorem load_miscounts_after_big_tree :
    (overflowFile (2 ^ 27)).Valid ∧
    (overflowFile (2 ^ 27)).ensemble = [List.replicate (2 ^ 27) zeroNode, leafTree] ∧
    ∀ (lim : Nat) (g : Locals),
      load lim g (overflowFile (2 ^ 27)).bytes = .ok [List.replicate (2 ^ 27) zeroNode, []] :=
  overflowFile_facts (2 ^ 27) rfl

/-- C7, at the failing input: the in-memory ensemble of a tree of `2^27` nodes
followed by `leafTree`, written through the documented layout and loaded, comes
back with node counts `[2^27, 0]` instead of `[2^27, 1]`. -/
theorem round_trip_loses_tree_after_big_tree :
    ∃ e, (∀ (lim : Nat) (g : Locals), load lim g (writeModel (List.replicate 136 0) [] []
        [(List.replicate (2 ^ 27) zeroNode, none), (leafTree, none)]).bytes = .ok e) ∧
      e.map List.length = [2 ^ 27, 0] ∧
      [List.replicate (2 ^ 27) zeroNode, leafTree].map List.length = [2 ^ 27, 1] :=
  overflow_round_trip (2 ^ 27) rfl

/-- C11: in an ensemble of well-formed trees, entry `i` of the result of `predict`
is the single entry of `predict` on the one-tree ensemble made of tree `i`, for
any feature mapping and any prior outputs; and on `threeSplits`, three trees of
one split each, with the mapping `threeFeatures` that covers the three tested
features, `predict` returns the three expected leaves `[1, 2, 2]`. -/
theorem predict_tree_independence (tree_ : GBTree) (feat : FeatMap) (out_preds other : List Int)
    (fuel i : Nat) (hwf : ∀ tree ∈ tree_, WellFormed tree)
    (hfuel : ∀ tree ∈ tree_, tree.length ≤ fuel) (hi : i < tree_.length) :
    (∃ res q tree, predict tree_ feat out_preds fuel = .ok res ∧ res[i]? = some q ∧
      tree_[i]? = some tree ∧ predict [tree] feat other fuel = .ok [q]) ∧
    predict threeSplits threeFeatures out_preds (fuel + 1) = .ok [1, 2, 2] := by
  constructor
  · have hw : ∀ j, j < tree_.length → ∃ q, walk tree_ feat j fuel 0 = .leaf q := by
      intro j hj
      have ht : tree_[j]? = some tree_[j] := List.getElem?_eq_getElem hj
      have hmem : tree_[j] ∈ tree_ := List.getElem_mem _
      obtain ⟨q, _, hq, _⟩ := walk_leaf_of_wellFormed tree_ j ht (hwf _ hmem) feat (hfuel _ hmem)
      exact ⟨q, hq⟩
    obtain ⟨res, h1, _, h3⟩ := predict_ok_of_walks out_preds hw
    obtain ⟨q, hq1, hq2⟩ := h3 i hi
    have ht : tree_[i]? = some tree_[i] := List.getElem?_eq_getElem hi
    refine ⟨res, q, tree_[i], h1, hq1, ht, ?_⟩
    apply predict_single
    rw [← walk_congr ht]
    exact hq2
  · exact predict_eq_of_walks out_preds [1, 2, 2] rfl (walk_threeSplits fuel)

theorem wellFormed_threeSplits : ∀ tree ∈ threeSplits, WellFormed tree := by
  intro tree h
  simp only [threeSplits, List.mem_cons, List.mem_singleton, List.not_mem_nil, or_false] at h
  rcases h with rfl | rfl | rfl <;> exact wellFormed_of_childrenAfter (by decide)

/-- Instance of C11 at the second tree of `threeSplits` under `threeFeatures`. -/
theorem predict_tree_independence_witness :
    (∀ tree ∈ threeSplits, WellFormed tree) ∧ (∀ tree ∈ threeSplits, tree.length ≤ 3) ∧
    1 < threeSplits.length ∧
    ((∃ res q tree, predict threeSplits threeFeatures [] 3 = .ok res ∧ res[1]? = some q ∧
      threeSplits[1]? = some tree ∧ predict [tree] threeFeatures [9] 3 = .ok [q]) ∧
    predict threeSplits threeFeatures [] (3 + 1) = .ok [1, 2, 2]) :=
  ⟨wellFormed_threeSplits, by decide, by decide,
    predict_tree_independence threeSplits threeFeatures [] [9] 3 1 wellFormed_threeSplits
      (by decide) (by decide)⟩

/-- C12: `is_leaf()` holds exactly when `cleft_` is `-1`, and it does not change
when `parent_`, `cright_`, `sindex_` and the payload are replaced by any values. -/
theorem is_leaf_iff_cleft (nd : Node) :
    (nd.is_leaf = true ↔ nd.cleft_ = -1) ∧
    ∀ (parent_ cright_ : Int) (sindex_ : Nat) (info_ : bst_float),
      Node.is_leaf ⟨parent_, nd.cleft_, cright_, sindex_, info_⟩ = nd.is_leaf := by
  constructor
  · simp [Node.is_leaf]
  · intros; rfl

/-- C13 (Scenario A): on the ensemble of the single tree whose only node is a
root leaf (`cleft_ = -1`, payload `0.0`), `predict` returns `[0]` for every
feature mapping, every prior output and every step budget. -/
theorem predict_root_leaf (feat : FeatMap) (out_preds : List Int) (fuel : Nat) :
    leafTree = [⟨0, -1, 0, 0, 0⟩] ∧ predict [leafTree] feat out_preds fuel = .ok [0] := by
  refine ⟨rfl, ?_⟩
  apply predict_single
  cases fuel <;> rfl

/-- C14 (Scenario B): `splitTree` has its root at position 0 testing feature 3
against `1.5` with `default_left() = false`, the left leaf at position 1 and the
right leaf at position 2; `predict` returns `[1]` for `{3: 1.0}`, `[2]` for
`{3: 2.0}` and `[2]` for the empty mapping. -/
theorem predict_single_split (out_preds : List Int) (fuel : Nat) :
    (splitRoot.split_index = 3 ∧ splitRoot.split_cond = 0x3FC00000 ∧
      splitRoot.default_left = false ∧ splitRoot.cleft = 1 ∧ splitRoot.cright = 2 ∧
      splitTree = [splitRoot, leafNode, leafNode] ∧ leafNode.is_leaf = true) ∧
    predict [splitTree] (featOfList [(3, 0x3F800000)]) out_preds (fuel + 1) = .ok [1] ∧
    predict [splitTree] (featOfList [(3, 0x40000000)]) out_preds (fuel + 1) = .ok [2] ∧
    predict [splitTree] (featOfList []) out_preds (fuel + 1) = .ok [2] := by
  refine ⟨by decide, ?_, ?_, ?_⟩ <;> apply predict_single <;>
    exact @walk_fuel_mono _ _ _ 1 _ _ (by decide) _ (by omega)

/-- C15 (as amended): the movements of the read position during `load` follow one
another from position 0, on every file system and whatever the local variables
held.  A skip whose value is in range (a length below `2^63`, a node count below
`2^27`) never moves the position back: it advances the position by exactly the
format constant or the length just read when its target is a position that
`fseek` can set on the file, as every position within the file is, and it leaves
the position where it was otherwise.  On an input all of whose skips are in range
the read position never decreases. -/
theorem load_skips_forward_in_range (lim : Nat) (g : Locals) (bytes : List Nat) :
    Contiguous 0 (loadTrace lim g bytes) ∧
    (∀ m ∈ loadTrace lim g bytes, m.InRange →
      m.before ≤ m.after ∧
      (m.Within (offsetLimit lim bytes) → m.Exact) ∧
      (m.Within bytes.length → m.Exact) ∧
      (¬ m.Within (offsetLimit lim bytes) → m.after = m.before)) ∧
    ((∀ m ∈ loadTrace lim g bytes, m.InRange) →
      List.Chain (· ≤ ·) 0 ((loadTrace lim g bytes).map Move.after)) := by
  obtain ⟨hc, hs⟩ := loadTrace_spec lim g bytes
  refine ⟨hc, fun m hm hr => ?_, ?_⟩
  · obtain ⟨h1, h2, h3⟩ := exact_of_sound (hs m hm) hr
    exact ⟨h1, h2, fun hw => h2 (within_mono (length_le_offsetLimit lim bytes) hw), h3⟩
  · intro hall
    exact chain_of_contiguous _ 0 hc (fun m hm => (exact_of_sound (hs m hm) (hall m hm)).1)

set_option maxRecDepth 100000 in
/-- Instance of C15 (as amended) at `smallFile`: all its skips are in range and
have their targets within the file, and the read position goes through 136, 144,
144, 152, 152, 312, 460, 480, 496. -/
theorem load_skips_forward_in_range_witness :
    (∀ m ∈ loadTrace 0 zeroLocals smallFile.bytes, m.InRange) ∧
    (∀ m ∈ loadTrace 0 zeroLocals smallFile.bytes, m.Within smallFile.bytes.length) ∧
    List.Chain (· ≤ ·) 0 ((loadTrace 0 zeroLocals smallFile.bytes).map Move.after) ∧
    (loadTrace 0 zeroLocals smallFile.bytes).map Move.after =
      [136, 144, 144, 152, 152, 312, 460, 480, 496] :=
  have h : ∀ m ∈ loadTrace 0 zeroLocals smallFile.bytes, m.InRange := by decide
  ⟨h, by decide, (load_skips_forward_in_range 0 zeroLocals smallFile.bytes).2.2 h, by decide⟩

/-- C15 as stated fails: on the 144-byte file `backSeekFile`, whose first length
is `2^64 - 1`, the offset given to `fseek` is `-1`; the read position goes from
144 back to 143, and the skip does not advance by the length.  And on
`overflowFile (2^27)`, whose first tree has `2^27` nodes, the skip of the node
statistics moves the read position back from `460 + 20 * 2^27` to `460 + 2^29`. -/
theorem load_skips_go_backwards :
    backSeekFile.length = 144 ∧
    (∀ (lim : Nat) (g : Locals), (loadTrace lim g backSeekFile).take 3 =
      [.skip 0 .header 136, .read 136 8 8, .skip 144 (.block (2 ^ 64 - 1)) 143]) ∧
    ¬ (Move.skip 144 (.block (2 ^ 64 - 1)) 143).Exact ∧
    (∀ (lim : Nat) (g : Locals),
      ¬ List.Chain (· ≤ ·) 0 ((loadTrace lim g backSeekFile).map Move.after)) ∧
    ∀ (lim : Nat) (g : Locals),
      Move.skip (460 + 20 * 2 ^ 27) (.stats ((2 ^ 27 : Nat) : Int)) (460 + 2 ^ 29)
        ∈ loadTrace lim g (overflowFile (2 ^ 27)).bytes := by
  refine ⟨by simp [backSeekFile], backSeekFile_moves, by decide, ?_,
    overflowFile_stats_skip (2 ^ 27) rfl⟩
  intro lim g hc
  rw [← List.take_append_drop 3 (loadTrace lim g backSeekFile), backSeekFile_moves lim g] at hc
  simp only [List.cons_append, List.map_cons, Move.after, List.chain_cons] at hc
  omega

/-- C16, at the failing input: two files of the documented layout whose first
tree has `2^28` nodes agree on the header, the names, both parameter blocks, every
node record and the absence of leaf vectors, and differ only in one byte of the
node statistics of the first tree; `load` returns a second tree without nodes for
the one and with one node for the other, on every file system and whatever its
local variables held.  The 32-bit product
`sizeof_node_stat * num_nodes` is 0 for `2^28` nodes, so the statistics are not
skipped but read as the next tree. -/
theorem load_depends_on_skipped_statistics :
    (statsFile (2 ^ 28) (List.replicate (16 * 2 ^ 28) 0)).Valid ∧
    (statsFile (2 ^ 28) (markedStats (2 ^ 28))).Valid ∧
    (statsFile (2 ^ 28) (List.replicate (16 * 2 ^ 28) 0)).preamble =
      (statsFile (2 ^ 28) (markedStats (2 ^ 28))).preamble ∧
    (statsFile (2 ^ 28) (List.replicate (16 * 2 ^ 28) 0)).trees.map
        (fun t => (t.tree_param, t.nodes, t.leaf_vector)) =
      (statsFile (2 ^ 28) (markedStats (2 ^ 28))).trees.map
        (fun t => (t.tree_param, t.nodes, t.leaf_vector)) ∧
    (statsFile (2 ^ 28) (List.replicate (16 * 2 ^ 28) 0)).trailing =
      (statsFile (2 ^ 28) (markedStats (2 ^ 28))).trailing ∧
    (∀ (lim : Nat) (g : Locals),
      load lim g (statsFile (2 ^ 28) (List.replicate (16 * 2 ^ 28) 0)).bytes =
        .ok [List.replicate (2 ^ 28) zeroNode, []]) ∧
    (∀ (lim : Nat) (g : Locals),
      load lim g (statsFile (2 ^ 28) (markedStats (2 ^ 28))).bytes =
        .ok [List.replicate (2 ^ 28) zeroNode, [zeroNode]]) :=
  statsFile_facts (2 ^ 28) rfl

/-- C17 (as amended): `predict` checks no node reference and has no failure
result.  When the loop of a tree reaches a position outside the tree, `predict`
reads the node at that position, out of bounds; when the loop stays within a set
of non-leaf positions (it has run into a cycle), `predict` has not returned after
any number of steps. -/
theorem predict_has_no_reference_check (tree : List Node) (feat : FeatMap)
    (out_preds : List Int) :
    (∀ (fuel : Nat) (p : Int), p ∈ visited [tree] feat 0 fuel 0 → ¬ InRange tree p →
      predict [tree] feat out_preds fuel = .outOfBounds 0 p) ∧
    (∀ S : List Int, 0 ∈ S →
      (∀ p ∈ S, ∃ nd q, treeAt tree p = some nd ∧ nd.is_leaf = false ∧
        stepPid [tree] feat 0 p = some q ∧ q ∈ S) →
      ∀ fuel, predict [tree] feat out_preds fuel = .outOfFuel 0) := by
  constructor
  · intro fuel p hmem hout
    have hp : nodeAt [tree] 0 p = none := by
      rw [nodeAt_single]
      cases h : treeAt tree p with
      | none => rfl
      | some nd => exact absurd (treeAt_some h).1 hout
    exact predict_single_outOfBounds (walk_outOfBounds_of_visited hp fuel 0 hmem) out_preds
  · intro S h0 hS fuel
    have hS' : ∀ p ∈ S, ∃ nd q, nodeAt [tree] 0 p = some nd ∧ nd.is_leaf = false ∧
        stepPid [tree] feat 0 p = some q ∧ q ∈ S := by
      intro p hp
      obtain ⟨nd, q, h1, h2, h3, h4⟩ := hS p hp
      exact ⟨nd, q, by rw [nodeAt_single]; exact h1, h2, h3, h4⟩
    obtain ⟨q, hq⟩ := walk_trapped S hS' fuel 0 h0
    exact predict_single_outOfFuel hq out_preds

/-- Instance of C17 (as amended): `danglingTree`, whose root points at position
5, and the tree of the all-zero node, whose root points at itself. -/
theorem predict_has_no_reference_check_witness :
    (5 ∈ visited [danglingTree] (fun _ => none) 0 1 0 ∧ ¬ InRange danglingTree 5 ∧
      predict [danglingTree] (fun _ => none) [] 1 = .outOfBounds 0 5) ∧
    ((0 : Int) ∈ [0] ∧
      (∀ p ∈ [(0 : Int)], ∃ nd q, treeAt [zeroNode] p = some nd ∧ nd.is_leaf = false ∧
        stepPid [[zeroNode]] (fun _ => none) 0 p = some q ∧ q ∈ [(0 : Int)]) ∧
      predict [[zeroNode]] (fun _ => none) [] 7 = .outOfFuel 0) :=
  have h1 : (5 : Int) ∈ visited [danglingTree] (fun _ => none) 0 1 0 := by decide
  have h2 : ¬ InRange danglingTree 5 := by decide
  have h3 : ∀ p ∈ [(0 : Int)], ∃ nd q, treeAt [zeroNode] p = some nd ∧ nd.is_leaf = false ∧
      stepPid [[zeroNode]] (fun _ => none) 0 p = some q ∧ q ∈ [(0 : Int)] := by
    intro p hp
    simp only [List.mem_singleton] at hp
    subst hp
    exact ⟨zeroNode, 0, rfl, rfl, rfl, by simp⟩
  ⟨⟨h1, h2, (predict_has_no_reference_check danglingTree (fun _ => none) []).1 1 5 h1 h2⟩,
    ⟨by simp, h3,
      (predict_has_no_reference_check [zeroNode] (fun _ => none) []).2 [0] (by simp) h3 7⟩⟩

/-- C17 as stated fails: on `danglingTree`, whose non-leaf root has its children
at position 5 of a one-node tree, `predict` reads position 5 out of bounds; on
the tree of the all-zero node, whose root is its own child, the loop of `predict`
is still running after any number of steps.  Neither ends in a failure. -/
theorem predict_raises_no_reference_error :
    predict [danglingTree] (fun _ => none) [] 1 = .outOfBounds 0 5 ∧
    ∀ fuel, predict [[zeroNode]] (fun _ => none) [] fuel = .outOfFuel 0 := by
  refine ⟨by decide, ?_⟩
  intro fuel
  exact predict_single_outOfFuel (walk_selfLoop _ fuel) []

/-- C18: `split_index()` is below `2^31`, so its conversion to the `int` key of
the map keeps its value and is not negative; and `predict` returns the same on a
mapping and on the mapping without its entries of negative key. -/
theorem predict_ignores_negative_keys (tree_ : GBTree) (feat : FeatMap) (out_preds : List Int)
    (fuel : Nat) (nd : Node) :
    (nd.split_index < 2 ^ 31 ∧ unsignedToInt nd.split_index = (nd.split_index : Int) ∧
      0 ≤ unsignedToInt nd.split_index) ∧
    predict tree_ (dropNegativeKeys feat) out_preds fuel = predict tree_ feat out_preds fuel := by
  refine ⟨⟨split_index_lt nd, unsignedToInt_split_index nd, ?_⟩, ?_⟩
  · rw [unsignedToInt_split_index]; omega
  · unfold predict
    rw [predictLoop_dropNegativeKeys]

/-- C19: for a node count `num_nodes` of an `int` that is not negative, the
32-bit product `sizeof_node_stat * num_nodes` is the byte count `16 * num_nodes`
exactly when `num_nodes < 2^27`; from `2^27` on the product is smaller, and the
seek from any position, on any file system, does not end at the start of the
next section. -/
theorem node_stat_skip_wraps (num_nodes : Int) (pos limit : Nat) (h0 : 0 ≤ num_nodes)
    (h1 : num_nodes < 2 ^ 31) :
    (wrapInt32 (sizeof_node_stat * num_nodes) = 16 * num_nodes ↔ num_nodes < 2 ^ 27) ∧
    (2 ^ 27 ≤ num_nodes →
      wrapInt32 (sizeof_node_stat * num_nodes) < 16 * num_nodes ∧
      (fseekCur limit pos (wrapInt32 (sizeof_node_stat * num_nodes)) : Int)
        ≠ pos + 16 * num_nodes) := by
  unfold wrapInt32 sizeof_node_stat fseekCur
  constructor
  · constructor <;> intro h <;> omega
  · intro h
    constructor
    · omega
    · split <;> omega

/-- Instance of C19 at `num_nodes = 2^27`, from the position after the node
records of a first tree of that size: the product is `-2^31`. -/
theorem node_stat_skip_wraps_witness :
    (0 : Int) ≤ 2 ^ 27 ∧ (2 ^ 27 : Int) < 2 ^ 31 ∧
    wrapInt32 (sizeof_node_stat * 2 ^ 27) = -2 ^ 31 ∧
    (fseekCur LONG_MAX 2684355020 (wrapInt32 (sizeof_node_stat * 2 ^ 27)) : Int)
      ≠ (2684355020 : Nat) + 16 * 2 ^ 27 :=
  ⟨by norm_num, by norm_num, by decide,
    ((node_stat_skip_wraps (2 ^ 27) 2684355020 LONG_MAX (by norm_num) (by norm_num)).2
      (le_refl _)).2⟩

end regression
